import Mathlib
/-!
# Verification of the pylstar core (shallow embedding)

This file embeds the central data structures and operations of the pylstar
library (an implementation of Angluin's L* algorithm for Mealy machines) in
Lean 4 and settles a list of claims made by its natural-language
specification.

Embedded components, each translated from the Python source:

* `Letter`, `Word` — alphabet primitives (`pylstar/Letter.py`,
  `pylstar/Word.py`).  A Python `Letter` wraps a *set* of symbols and two
  letters compare equal iff those sets are equal; `EmptyLetter` is a distinct
  *class* whose instances also carry the empty symbol set.  We model a letter
  as either an `EmptyLetter` instance (`Letter.empty`) or a plain `Letter`
  instance wrapping a finite set of (numbered) symbols (`Letter.sym`).
  Python `==` on letters is `Letter.canon`-equality (`pyEqL`), which
  identifies `Letter.empty` with `Letter.sym ∅`; `isinstance(·, EmptyLetter)`
  is `Letter.isEmptyInst`, which does not.  Both relations occur in the
  source and both are modelled.
* `KnowledgeNode` / `KnowledgeTree` — the membership cache
  (`pylstar/KnowledgeTree.py`).
* `KnowledgeBase.resolveWord` — the cached query resolver
  (`pylstar/KnowledgeBase.py`, `pylstar/ActiveKnowledgeBase.py`).
* `OTable` with its operations — the observation table
  (`pylstar/ObservationTable.py`).
* `AutomataM.playWord` — Mealy-machine word replay
  (`pylstar/automata/Automata.py`, `State.py`, `Transition.py`).
* `computesZ` — the `Z` component of the Wp-method test suite
  (`pylstar/LSTAR.py`).

Modelling conventions:

* Exceptions are modelled by `Option`: a raised exception is `none`.  On
  every failure path relied upon by a theorem below, the Python code raises
  before mutating the receiver, so representing a failed call by "no new
  state" is faithful; this is re-checked against the source at each use.
* Python dictionaries keyed by `Word` objects are modelled as functions from
  canonical words (`cwW`, the list of symbol sets) — Python hashes words via
  their `repr`, which is consistent with `==` for the letters the library
  constructs.
* The teacher behind the knowledge base is a function `kb : Word → Word`
  (`resolve_query` followed by reading `output_word`); file persistence and
  logging are omitted.
-/
/-- A Python `Letter` object: either an instance of the `EmptyLetter`
subclass, or a plain `Letter` instance wrapping a finite set of symbols
(symbols are numbered; the source allows arbitrary hashable values). -/
inductive Letter where
  | empty : Letter
  | sym : Finset ℕ → Letter
deriving DecidableEq
instance : Inhabited Letter := ⟨Letter.empty⟩
/-- The symbol set of a letter (`self.symbols`); `EmptyLetter` instances
carry the empty set. -/
def Letter.canon : Letter → Finset ℕ
  | .empty => ∅
  | .sym s => s
/-- `isinstance(l, EmptyLetter)`. -/
def Letter.isEmptyInst : Letter → Bool
  | .empty => true
  | .sym _ => false
/-- Python `==` on letters: `Letter.__eq__` compares the symbol sets. -/
def pyEqL (a b : Letter) : Bool := decide (a.canon = b.canon)
/-- A Python `Word` object: an ordered sequence of letters
(`pylstar/Word.py`).  The stored list is whatever the `letters` setter
produced; `mkWord` below is the normalising constructor. -/
structure Word where
  letters : List Letter
deriving DecidableEq
instance : Inhabited Word := ⟨⟨[]⟩⟩
/-- The `Word` constructor / `letters` setter: a leading `EmptyLetter`
*instance* is dropped when the word has more than one letter
(`Word.py`, lines 125–135). -/
def mkWord : List Letter → Word
  | [] => ⟨[]⟩
  | [l] => ⟨[l]⟩
  | l :: rest => if l.isEmptyInst then ⟨rest⟩ else ⟨l :: rest⟩
/-- Canonical form of a word: the list of symbol sets of its letters.
Python `==` on words is equality of canonical forms, and `hash`/dict keying
agrees with it for the letters the library builds. -/
def cwW (w : Word) : List (Finset ℕ) := w.letters.map Letter.canon
/-- Python `==` on words (`Word.__eq__`: list equality of letters, letters
compared by symbol sets). -/
def pyEqW (u v : Word) : Bool := decide (cwW u = cwW v)
/-- `Word.__add__` (`Word.py`, lines 111–118): if the left word begins with
an `EmptyLetter` instance that letter is skipped; the concatenated list then
goes through the normalising constructor. -/
def wordAdd (u v : Word) : Word :=
  match u.letters with
  | l :: rest => if l.isEmptyInst then mkWord (rest ++ v.letters) else mkWord (u.letters ++ v.letters)
  | [] => mkWord (u.letters ++ v.letters)
/-- The word `[EmptyLetter()]`, used by the library as the ε row label. -/
def epsW : Word := ⟨[Letter.empty]⟩
/-- A word object is *normalised* when it is a fixed point of the `letters`
setter, i.e. it does not consist of an `EmptyLetter` instance followed by
further letters.  (Note that `Word([ε,ε,x])` stores `[ε,x]`, which is *not*
normalised in this sense: the setter strips only one leading empty
letter.) -/
def normalizedW (w : Word) : Bool :=
  match w.letters with
  | l :: _ :: _ => !l.isEmptyInst
  | _ => true

/-- A Mealy transition (`pylstar/automata/Transition.py`): input letter,
output letter and successor state.  States are identified by their index in
the automaton's state list (the Python code shares `State` objects by
reference; an arena of indices is the standard acyclic rendering).  The
`name` field is only used for DOT output and is omitted. -/
structure MTransition where
  output_state : ℕ
  input_letter : Letter
  output_letter : Letter
deriving DecidableEq

/-- A Mealy state (`pylstar/automata/State.py`): its list of outgoing
transitions.  The `name` field is only used for display and is omitted. -/
structure MState where
  transitions : List MTransition
deriving DecidableEq

/-- A Mealy automaton (`pylstar/automata/Automata.py`): the state arena and
the index of the initial state. -/
structure AutomataM where
  states : List MState
  initial : ℕ
deriving DecidableEq

/-- `State.visit` (`State.py`, lines 57–103): the first transition whose
input letter compares `==` to the given letter fires; if none exists an
exception is raised. -/
def visitA (A : AutomataM) (si : ℕ) (l : Letter) : Option (Letter × ℕ) :=
  match A.states[si]? with
  | none => none
  | some st =>
    match st.transitions.find? (fun tr => pyEqL tr.input_letter l) with
    | none => none
    | some tr => some (tr.output_letter, tr.output_state)

/-- The letter loop of `Automata.play_word` (`Automata.py`, lines 106–111):
visit each input letter in turn, collecting the output letters and the
visited states. -/
def playSteps (A : AutomataM) : List Letter → ℕ → Option (List Letter × List ℕ)
  | [], _ => some ([], [])
  | l :: rest, si =>
    (visitA A si l).bind (fun p =>
      (playSteps A rest p.2).map (fun q => (p.1 :: q.1, p.2 :: q.2)))

/-- `Automata.play_word` (`Automata.py`, lines 93–114): raises on an empty
input word, then plays the letters from the given state and wraps the
collected output letters in `Word(letters=...)` — which normalises, i.e.
drops a leading `EmptyLetter` instance. -/
def playWord (A : AutomataM) (w : Word) (si : ℕ) : Option (Word × List ℕ) :=
  if w.letters.isEmpty then none
  else (playSteps A w.letters si).map (fun p => (mkWord p.1, p.2))

/-- Concrete automaton for the C6 counterexample: one state with a single
self-loop whose input is `Letter({0})` and whose output is an `EmptyLetter`
instance (teachers pad with empty letters, so such hypotheses arise). -/
def autoC6 : AutomataM := ⟨[⟨[⟨0, Letter.sym {0}, Letter.empty⟩]⟩], 0⟩

/-- The two-letter input word `[Letter({0}), Letter({0})]` for the C6
counterexample. -/
def wC6 : Word := ⟨[Letter.sym {0}, Letter.sym {0}]⟩

/-- Concrete automaton for the C6 witness: one state with a self-loop
`Letter({0}) / Letter({1})`. -/
def autoC6w : AutomataM := ⟨[⟨[⟨0, Letter.sym {0}, Letter.sym {1}⟩]⟩], 0⟩

/-- A one-letter input word over the witness automaton's alphabet. -/
def wC6w : Word := ⟨[Letter.sym {0}]⟩

/-- A knowledge-tree node (`pylstar/KnowledgeTree.py`, class `KnowledgeNode`):
an input letter, the output letter observed at this prefix, and an ordered
list of children. -/
inductive KNode where
  | mk (input_letter output_letter : Letter) (children : List KNode)

/-- The `input_letter` field of a node. -/
def KNode.inp : KNode → Letter
  | .mk i _ _ => i

/-- The `output_letter` field of a node. -/
def KNode.out : KNode → Letter
  | .mk _ o _ => o

/-- The `children` field of a node. -/
def KNode.children : KNode → List KNode
  | .mk _ _ c => c

/-- The child scan shared by `KnowledgeNode.traverse` and
`KnowledgeTree.__add_letters`: the first node in the list whose input letter
compares `==` to the given letter, returned together with the nodes before
and after it.  `none` when no node matches. -/
def findChildPy (cs : List KNode) (i1 : Letter) : Option (List KNode × KNode × List KNode) :=
  match cs with
  | [] => none
  | c :: rest =>
    if pyEqL c.inp i1 then some ([], c, rest)
    else (findChildPy rest i1).map (fun t => (c :: t.1, t.2.1, t.2.2))

/-- `KnowledgeNode.traverse` in lookup mode (`output_letters = None`;
`KnowledgeTree.py`, lines 71–110): check the head input letter against the
node, return the stored output letter for a one-letter input, otherwise
descend into the first child matching the next input letter; any failure is
an exception (`none`). -/
def lookupNode (n : KNode) (ils : List Letter) : Option (List Letter) :=
  match ils with
  | [] => none
  | [i0] => if pyEqL i0 n.inp then some [n.out] else none
  | i0 :: i1 :: irest2 =>
    if pyEqL i0 n.inp then
      match findChildPy n.children i1 with
      | some t => (lookupNode t.2.1 (i1 :: irest2)).map (fun outs => n.out :: outs)
      | none => none
    else none

/-- `KnowledgeNode.traverse` in insert mode (`output_letters` given):
additionally checks the stored output letter against the incoming one
(raising on mismatch — the cache-conflict fault) and the residual lengths,
and creates a missing child carrying the next output letter.  Returns the
collected output letters together with the updated node.  On every `none`
path the Python code raises before mutating the node (a conflict is detected
at an existing child, before any child has been created on this call), so
discarding the node on failure is faithful. -/
def insertNode (n : KNode) (ils ols : List Letter) : Option (List Letter × KNode) :=
  match ils, ols with
  | [], _ => none
  | _, [] => none
  | [i0], o0 :: orest =>
    if pyEqL i0 n.inp ∧ pyEqL o0 n.out ∧ ([] : List Letter).length = orest.length then
      some ([n.out], n)
    else none
  | _ :: _ :: _, [_] => none
  | i0 :: i1 :: irest2, o0 :: o1 :: orest2 =>
    if pyEqL i0 n.inp ∧ pyEqL o0 n.out ∧ (i1 :: irest2).length = (o1 :: orest2).length then
      match findChildPy n.children i1 with
      | some t =>
        if pyEqL t.2.1.out o1 then
          (insertNode t.2.1 (i1 :: irest2) (o1 :: orest2)).map
            (fun r => (n.out :: r.1, KNode.mk n.inp n.out (t.1 ++ r.2 :: t.2.2)))
        else none
      | none =>
        (insertNode (KNode.mk i1 o1 []) (i1 :: irest2) (o1 :: orest2)).map
          (fun r => (n.out :: r.1, KNode.mk n.inp n.out (n.children ++ [r.2])))
    else none

/-- `KnowledgeTree` (`KnowledgeTree.py`): the list of roots.  The optional
cache file and insertion counter only drive persistence and are omitted. -/
structure KTree where
  roots : List KNode

/-- The root loop of `KnowledgeTree.get_output_word`: try each root in
order, catching the exception and moving on; the first successful traversal
wins. -/
def firstLookup (rs : List KNode) (ils : List Letter) : Option (List Letter) :=
  match rs with
  | [] => none
  | r :: rest =>
    match lookupNode r ils with
    | some outs => some outs
    | none => firstLookup rest ils

/-- `KnowledgeTree.get_output_word` (`KnowledgeTree.py`, lines 166–176):
the collected output letters are wrapped in `Word(...)`, i.e. normalised by
`mkWord`. -/
def getOutputWord (t : KTree) (w : Word) : Option Word :=
  (firstLookup t.roots w.letters).map mkWord

/-- `KnowledgeTree.__add_letters` (`KnowledgeTree.py`, lines 287–304): find
the root matching the first input letter (checking its stored output letter
— mismatch raises), create it if absent, then traverse in insert mode. -/
def addLetters (t : KTree) (ils ols : List Letter) : Option KTree :=
  match ils, ols with
  | [], _ => none
  | _, [] => none
  | i0 :: _, o0 :: _ =>
    match findChildPy t.roots i0 with
    | some tr =>
      if pyEqL tr.2.1.out o0 then
        (insertNode tr.2.1 ils ols).map (fun r => ⟨tr.1 ++ r.2 :: tr.2.2⟩)
      else none
    | none =>
      (insertNode (KNode.mk i0 o0 []) ils ols).map (fun r => ⟨t.roots ++ [r.2]⟩)

/-- `KnowledgeTree.add_word` (`KnowledgeTree.py`, lines 178–224): length
check, then `__add_letters`; cache persistence is omitted. -/
def addWord (t : KTree) (iw ow : Word) : Option KTree :=
  if iw.letters.length = ow.letters.length then addLetters t iw.letters ow.letters
  else none

/-- `KnowledgeBase.resolve_query` / `_resolve_word` over an active teacher
(`KnowledgeBase.py`, lines 85–108, `ActiveKnowledgeBase.py`, lines 47–59):
serve from the tree when possible; otherwise invoke the teacher and insert
the reply.  `teacher w = none` models `submit_word` raising or returning
`None` — in either case the query ends unresolved and the tree remembers
nothing.  The result is the resolved output word, the resulting tree, and
whether the teacher was invoked; `none` means the query was not resolved. -/
def resolveWord (teacher : Word → Option Word) (t : KTree) (w : Word) :
    Option (Word × KTree × Bool) :=
  match getOutputWord t w with
  | some out => some (out, t, false)
  | none =>
    match teacher w with
    | none => none
    | some out => (addWord t w out).map (fun t2 => (out, t2, true))

/-- A sequence of later `resolve_query` calls (arbitrary words, arbitrary
teacher behaviour); a failed resolution leaves the tree as it was. -/
def runQueries (t : KTree) (qs : List ((Word → Option Word) × Word)) : KTree :=
  qs.foldl (fun tc q =>
    match resolveWord q.1 tc q.2 with
    | some r => r.2.1
    | none => tc) t

/-- A concrete deterministic teacher for witnesses: replies with
`Letter({5})` at every position. -/
def teachC1 : Word → Option Word := fun w => some ⟨w.letters.map (fun _ => Letter.sym {5})⟩

/-- A concrete two-letter query word for the C1 witness. -/
def wC1 : Word := ⟨[Letter.sym {1}, Letter.sym {2}]⟩

/-- The knowledge tree obtained by resolving `wC1` against `teachC1`
starting from the empty tree. -/
def treeC1 : KTree :=
  ⟨[KNode.mk (Letter.sym {1}) (Letter.sym {5}) [KNode.mk (Letter.sym {2}) (Letter.sym {5}) []]]⟩

/-- A tree holding the single observation `([Letter({1})], [EmptyLetter])`
(a teacher may legitimately reply with an empty letter, e.g. on a channel
failure). -/
def treeC5a : KTree := ⟨[KNode.mk (Letter.sym {1}) Letter.empty []]⟩

/-- Input word `[Letter({1}), Letter({2})]` for the C5 counterexample. -/
def uC5 : Word := ⟨[Letter.sym {1}, Letter.sym {2}]⟩

/-- Output word `[Letter(), Letter({3})]` for the C5 counterexample: its
first letter is a plain `Letter` with empty symbol set, which compares `==`
to `EmptyLetter()` but is not dropped by the `Word` constructor. -/
def vC5 : Word := ⟨[Letter.sym ∅, Letter.sym {3}]⟩

/-- `treeC5a` after the successful insertion of `(uC5, vC5)`. -/
def treeC5b : KTree :=
  ⟨[KNode.mk (Letter.sym {1}) Letter.empty [KNode.mk (Letter.sym {2}) (Letter.sym {3}) []]]⟩

/-- A one-observation tree for the C5 witness. -/
def treeC5w : KTree := ⟨[KNode.mk (Letter.sym {1}) (Letter.sym {9}) []]⟩

/-- A tree holding the single observation `([Letter({1})], [EmptyLetter])`,
for the C10 counterexample. -/
def treeC10a : KTree := ⟨[KNode.mk (Letter.sym {1}) Letter.empty []]⟩

/-- Input word `[Letter({1}), Letter({2}), Letter({4})]` for the C10
counterexample. -/
def uC10 : Word := ⟨[Letter.sym {1}, Letter.sym {2}, Letter.sym {4}]⟩

/-- Output word `[Letter(), Letter({3}), Letter({6})]` for the C10
counterexample. -/
def vC10 : Word := ⟨[Letter.sym ∅, Letter.sym {3}, Letter.sym {6}]⟩

/-- `treeC10a` after the successful insertion of `(uC10, vC10)`. -/
def treeC10b : KTree :=
  ⟨[KNode.mk (Letter.sym {1}) Letter.empty
    [KNode.mk (Letter.sym {2}) (Letter.sym {3})
      [KNode.mk (Letter.sym {4}) (Letter.sym {6}) []]]]⟩

/-- A two-observation tree for the C10 witness. -/
def treeC10w : KTree :=
  ⟨[KNode.mk (Letter.sym {1}) (Letter.sym {7}) [KNode.mk (Letter.sym {2}) (Letter.sym {8}) []]]⟩

/-- An empty knowledge tree, and data for the C4 counterexample/witness:
insert `([a,b],[1,2])`, then `([a,b],[1,3])` conflicts. -/
def treeC4w : KTree :=
  ⟨[KNode.mk (Letter.sym {10}) (Letter.sym {1}) [KNode.mk (Letter.sym {11}) (Letter.sym {2}) []]]⟩

/-! ### Observation table (`pylstar/ObservationTable.py`)

The table's dictionaries (`ot_content` and its per-column cell maps) are
keyed by `Word` objects; Python hashes a word through its `repr` and
compares keys with `==`, which for the words the library constructs agrees
with canonical equality.  We therefore key the embedded dictionaries by
canonical words.  The knowledge base behind the table is abstracted into a
deterministic teacher `T : CWd → Option (Finset ℕ)` mapping the canonical
input word of a cell query to the canonical last letter of the resolved
output word (`resolve_query` followed by `output_word.last_letter()`);
`none` models a failed resolution or an empty output word, both of which
raise. -/

/-- A canonical word: the list of symbol sets of its letters (`cwW`). -/
abbrev CWd := List (Finset ℕ)

/-- One column of `ot_content`: a Python dict from row words to stored
cells.  A stored cell is `some s` for a `Letter` with symbol set `s`, and
`none` for the Python `None` written by `remove_row`. -/
abbrev OCol := List (CWd × Option (Finset ℕ))

/-- Python dict read `m[k]` (`none` = `KeyError`). -/
def lookupD {α : Type} (m : List (CWd × α)) (k : CWd) : Option α :=
  (m.find? (fun p => decide (p.1 = k))).map (fun p => p.2)

/-- Python dict assignment `m[k] = v`: overwrite the existing entry or
append a new one. -/
def setD {α : Type} (m : List (CWd × α)) (k : CWd) (v : α) : List (CWd × α) :=
  match m with
  | [] => [(k, v)]
  | p :: rest => if p.1 = k then (k, v) :: rest else p :: setD rest k v

/-- Python `word in list_of_words` (membership via `Word.__eq__`). -/
def containsW (l : List Word) (w : Word) : Bool := l.any (fun x => pyEqW x w)

/-- The observation table state (`ObservationTable.__init__`): the input
alphabet, the column words `D`, the short prefixes `S`, the long prefixes
`SA` and the content dictionary.  The `initialized` flag and the knowledge
base reference are not part of the data reasoned about. -/
structure OTable where
  inputLetters : List Letter
  D : List Word
  S : List Word
  SA : List Word
  content : List (CWd × OCol)
deriving DecidableEq

/-- A cell query: `OutputQuery(row + col)` resolved through the knowledge
base, then `output_word.last_letter()` (`__add_word_in_D` lines 738–747,
`__add_word_in_S` lines 780–791, `__add_word_in_SA` lines 830–841 all build
the query word as `row + col` via `Word.__add__`). -/
def cellQuery (T : CWd → Option (Finset ℕ)) (row col : Word) : Option (Finset ℕ) :=
  T (cwW (wordAdd row col))

/-- `ObservationTable.__get_row` (lines 632–658): for each column of `D` in
order, the cell stored for the row, skipped when the row is not a key of
that column (dict keys are unique, so at most one entry matches).  Tables
built by the operations below always carry a column entry for every word of
`D`; on such tables a missing-column `KeyError` cannot occur and the outer
lookup never skips. -/
def getRowT (t : OTable) (w : Word) : List (Option (Finset ℕ)) :=
  t.D.filterMap (fun d => (lookupD t.content (cwW d)).bind (fun cel => lookupD cel (cwW w)))

/-- `ObservationTable.is_closed` (lines 546–557): every `SA` row value also
appears as an `S` row value (rows compared as Python lists of letters,
i.e. canonically; `None` cells compare equal only to `None`). -/
def isClosedT (t : OTable) : Bool :=
  t.SA.all (fun sa => t.S.any (fun s => decide (getRowT t s = getRowT t sa)))

/-- The `cels` loop of `__add_word_in_D` (lines 738–747): one cell query
per existing row of `S + SA`, collected into a fresh dict. -/
def buildCels (T : CWd → Option (Finset ℕ)) (w : Word) :
    List Word → OCol → Option OCol
  | [], acc => some acc
  | r :: rest, acc =>
    match cellQuery T r w with
    | none => none
    | some v => buildCels T w rest (setD acc (cwW r) (some v))

/-- `ObservationTable.__add_word_in_D` (lines 693–747): duplicate checks
against `D` and against the content keys, then the query loop; the column
is registered with its freshly computed cells.  (Python appends to `D`
before querying, but a query failure raises out of the operation, so only
the success state is observable.) -/
def addWordInD (T : CWd → Option (Finset ℕ)) (t : OTable) (w : Word) : Option OTable :=
  if containsW t.D w then none
  else if t.content.any (fun p => decide (p.1 = cwW w)) then none
  else
    (buildCels T w (t.S ++ t.SA) []).map (fun cels =>
      { t with D := t.D ++ [w], content := t.content ++ [(cwW w, cels)] })

/-- `ObservationTable.make_consistent` (lines 460–467): with an
inconsistency witness `((s1, s2), a), d)` it D-inserts
`Word([a] + d.letters)`. -/
def makeConsistent (T : CWd → Option (Finset ℕ)) (t : OTable) (a : Letter) (d : Word) :
    Option OTable :=
  addWordInD T t (mkWord (a :: d.letters))

/-- The cell loop of `__add_word_in_S` (lines 780–791): for each column,
query `word + word_in_D` and store the reply's last letter under the new
row (no duplicate-key check — it is commented out in the source). -/
def fillRowS (T : CWd → Option (Finset ℕ)) (w : Word) :
    List Word → List (CWd × OCol) → Option (List (CWd × OCol))
  | [], content => some content
  | d :: rest, content =>
    match lookupD content (cwW d) with
    | none => none
    | some cel =>
      match cellQuery T w d with
      | none => none
      | some v => fillRowS T w rest (setD content (cwW d) (setD cel (cwW w) (some v)))

/-- The cell loop of `__add_word_in_SA` (lines 830–841): as for `S`, but a
row already present as a key of a column raises. -/
def fillRowSA (T : CWd → Option (Finset ℕ)) (w : Word) :
    List Word → List (CWd × OCol) → Option (List (CWd × OCol))
  | [], content => some content
  | d :: rest, content =>
    match lookupD content (cwW d) with
    | none => none
    | some cel =>
      if cel.any (fun p => decide (p.1 = cwW w)) then none
      else
        match cellQuery T w d with
        | none => none
        | some v => fillRowSA T w rest (setD content (cwW d) (setD cel (cwW w) (some v)))

/-- `ObservationTable.__add_word_in_SA` (lines 803–841): membership checks
against `SA` and `S`, the row is appended to `SA` and its cells are
queried. -/
def addWordInSA (T : CWd → Option (Finset ℕ)) (t : OTable) (w : Word) : Option OTable :=
  if containsW t.SA w then none
  else if containsW t.S w then none
  else
    (fillRowSA T w t.D t.content).map (fun c =>
      { t with SA := t.SA ++ [w], content := c })

/-- The successor loop of `__add_word_in_S` (lines 793–801): for each input
letter build the one-letter extension — restarting from the letter itself
when the new `S` row is the ε row, tested by `isinstance(·, EmptyLetter)`
on its first letter (an empty row word raises `IndexError`) — and
SA-insert it unless it is `==`-member of the updated `S`. -/
def extendS (T : CWd → Option (Finset ℕ)) (w : Word) :
    List Letter → OTable → Option OTable
  | [], t => some t
  | a :: rest, t =>
    match w.letters with
    | [] => none
    | l0 :: _ =>
      let nw := if l0.isEmptyInst then mkWord [a] else wordAdd w (mkWord [a])
      if containsW t.S nw then extendS T w rest t
      else
        match addWordInSA T t nw with
        | none => none
        | some t2 => extendS T w rest t2

/-- `ObservationTable.__add_word_in_S` (lines 750–801): membership checks,
the row is appended to `S`, its cells are queried, and its one-letter
successors are pushed into `SA`. -/
def addWordInS (T : CWd → Option (Finset ℕ)) (t : OTable) (w : Word) : Option OTable :=
  if containsW t.S w then none
  else if containsW t.SA w then none
  else
    match fillRowS T w t.D t.content with
    | none => none
    | some c => extendS T w t.inputLetters { t with S := t.S ++ [w], content := c }

/-- The content part of `remove_row` (lines 332–338): assign `None` to the
row's cell in every column (Python dict assignment creates the key when it
is absent). -/
def noneOutRow (D : List Word) (content : List (CWd × OCol)) (k : CWd) :
    List (CWd × OCol) :=
  D.foldl (fun c d =>
    match lookupD c (cwW d) with
    | none => c
    | some cel => setD c (cwW d) (setD cel k none)) content

/-- `ObservationTable.remove_row` (lines 325–338): drop the first
`==`-equal occurrence from `S` and from `SA`, then blank the row's cells. -/
def removeRow (t : OTable) (w : Word) : OTable :=
  { t with
    S := t.S.eraseP (fun x => pyEqW x w),
    SA := t.SA.eraseP (fun x => pyEqW x w),
    content := noneOutRow t.D t.content (cwW w) }

/-- The prefix loop of `add_counterexample` (lines 317–323), iterating the
prefix lengths: a prefix already in `S` is skipped; one in `SA` is first
removed; then it is S-inserted. -/
def ceSteps (T : CWd → Option (Finset ℕ)) (u : Word) :
    List ℕ → OTable → Option OTable
  | [], t => some t
  | k :: rest, t =>
    if containsW t.S (mkWord (u.letters.take k)) then ceSteps T u rest t
    else
      match addWordInS T
          (if containsW t.SA (mkWord (u.letters.take k))
            then removeRow t (mkWord (u.letters.take k)) else t)
          (mkWord (u.letters.take k)) with
      | none => none
      | some t2 => ceSteps T u rest t2

/-- `ObservationTable.add_counterexample` (lines 228–323): argument checks,
then all non-empty prefixes of the input word are promoted to `S`. -/
def addCounterexample (T : CWd → Option (Finset ℕ)) (t : OTable) (u v : Word) :
    Option OTable :=
  if u.letters.length = 0 then none
  else if v.letters.length = 0 then none
  else if u.letters.length ≠ v.letters.length then none
  else ceSteps T u (List.range' 1 u.letters.length) t

/-- The `D` loop of `initialize` (lines 81–83): one column per input
letter. -/
def initD (T : CWd → Option (Finset ℕ)) : List Letter → OTable → Option OTable
  | [], t => some t
  | a :: rest, t =>
    match addWordInD T t (mkWord [a]) with
    | none => none
    | some t2 => initD T rest t2

/-- `ObservationTable.initialize` (lines 69–90): empty table, one column
per input letter, then the ε row `Word([EmptyLetter()])` is S-inserted. -/
def initializeTable (T : CWd → Option (Finset ℕ)) (ils : List Letter) : Option OTable :=
  (initD T ils ⟨ils, [], [], [], []⟩).bind (fun t => addWordInS T t (mkWord [Letter.empty]))

/-- One index step of the `close_table` loop (lines 616–630).  Python's
`for` statement iterates `self.SA` by a cursor index while the body mutates
the list: removing the current row shifts the remainder left, so the row
that followed it is fetched past at the next index and skipped, while rows
appended by the S-insertion are reached later.  `fuel` bounds the number of
iterations — the source loop need not terminate for an arbitrary teacher. -/
def closeAux (T : CWd → Option (Finset ℕ)) : ℕ → OTable → ℕ → Option OTable
  | 0, _, _ => none
  | fuel + 1, t, i =>
    match t.SA[i]? with
    | none => some t
    | some w =>
      if t.S.any (fun s => decide (getRowT t s = getRowT t w)) then
        closeAux T fuel t (i + 1)
      else
        match addWordInS T { t with SA := t.SA.eraseP (fun x => pyEqW x w) } w with
        | none => none
        | some t2 => closeAux T fuel t2 (i + 1)

/-- `ObservationTable.close_table` (lines 559–630). -/
def closeTable (T : CWd → Option (Finset ℕ)) (fuel : ℕ) (t : OTable) : Option OTable :=
  closeAux T fuel t 0

/-- No word is (under Python `==`) a member of both `S` and `SA`. -/
def disjointSSA (t : OTable) : Bool :=
  t.S.all (fun s => t.SA.all (fun r => !pyEqW s r))

/-- The number of distinct row values over `S` (rows compared as Python
compares them, i.e. canonically). -/
def distinctRowCount (t : OTable) : ℕ :=
  (t.S.map (fun s => getRowT t s)).toFinset.card

/-! ### The `Z` component of the Wp-method (`pylstar/LSTAR.py`) -/

/-- `OutputQuery.multiply` (`OutputQuery.py`, lines 77–81) at the level of
input words: concatenate (via `Word.__add__`) with each of the given query
words. -/
def multiplyQ (q : Word) (qs : List Word) : List Word := qs.map (fun w => wordAdd q w)

/-- The `X`/`Z` loop of `LSTAR.__computesZ` (`LSTAR.py`, lines 352–364).
`X[i]` extends each member of `X[i-1]` by every one-letter query — the
suffix `w ∈ W` of the documented formula is never appended.  The guard
`if not xi in Z` compares `OutputQuery` objects, which define no `__eq__`,
by identity: on the first `w`-iteration every (fresh) `xi` is appended, on
later ones every `xi` is already in `Z`, so each element of `X[i]` enters
`Z` exactly once when `W` is non-empty, and the loop appends nothing when
`W` is empty. -/
def zLoop (oqs W : List Word) : ℕ → List Word → List Word → List Word
  | 0, _, Z => Z
  | v + 1, prevX, Z =>
    let Xi := prevX.flatMap (fun x => multiplyQ x oqs)
    zLoop oqs W v Xi (if W.isEmpty then Z else Z ++ Xi)

/-- `LSTAR.__computesZ` (`LSTAR.py`, lines 327–365): `Z` starts as a copy
of `W`; `v = max(0, max_states − n)` (ℕ subtraction); the one-letter output
queries are built from the input alphabet. -/
def computesZ (ils : List Letter) (maxStates nStates : ℕ) (W : List Word) : List Word :=
  zLoop (ils.map (fun a => mkWord [a])) W (maxStates - nStates) W W

/-- One level of the specification's `X` recurrence, written from the spec
text (§4.4.1): `X^{i+1} = { x · ⟨a⟩ · w : x ∈ X^i, a ∈ Σ, w ∈ W }`.  This
definition follows the spec's words, for comparison with `computesZ`. -/
def specZstep (oqs W X : List Word) : List Word :=
  X.flatMap (fun x => oqs.flatMap (fun q => W.map (fun w => wordAdd (wordAdd x q) w)))

/-- The spec's `Z = W ∪ X^1 ∪ … ∪ X^v` accumulated level by level (written
from the spec text; duplicate suppression is immaterial on the concrete
inputs used below, whose elements are pairwise distinct). -/
def specZloop (oqs W : List Word) : ℕ → List Word → List Word → List Word
  | 0, _, Z => Z
  | v + 1, prevX, Z =>
    let Xi := specZstep oqs W prevX
    specZloop oqs W v Xi (Z ++ Xi)

/-- The spec's `Z` component (§4.4.1), with `v = max(0, m − n)`. -/
def specZ (ils : List Letter) (maxStates nStates : ℕ) (W : List Word) : List Word :=
  specZloop (ils.map (fun a => mkWord [a])) W (maxStates - nStates) W W

/-! ### Concrete instances for the table and Wp-method claims -/

/-- The input letter `Letter('a')` (symbol set `{0}`) of the concrete
alphabet used by the table and Wp-method instances. -/
def laT : Letter := Letter.sym {0}

/-- The input letter `Letter('b')` (symbol set `{1}`). -/
def lbT : Letter := Letter.sym {1}

/-- The one-letter word `[Letter('a')]`. -/
def waT : Word := ⟨[laT]⟩

/-- The one-letter word `[Letter('b')]`. -/
def wbT : Word := ⟨[lbT]⟩

/-- The two-letter word `[Letter('a'), Letter('a')]`. -/
def waaT : Word := ⟨[laT, laT]⟩

/-- The two-letter word `[Letter('b'), Letter('a')]`. -/
def wbaT : Word := ⟨[lbT, laT]⟩

/-- The two-letter word `[Letter('b'), Letter('b')]`. -/
def wbbT : Word := ⟨[lbT, lbT]⟩

/-- The three-letter word `[b, a, b]`. -/
def wbabT : Word := ⟨[lbT, laT, lbT]⟩

/-- The three-letter word `[b, b, b]`. -/
def wbbbT : Word := ⟨[lbT, lbT, lbT]⟩

/-- A deterministic teacher drawn from a three-state Mealy machine: from
the initial state, `a` outputs `10` and `b` outputs `11`, leading to two
absorbing states that output `12` (after a first `a`) and `13` (after a
first `b`) on every letter.  Used to exhibit the `close_table` skip. -/
def teachC3 : CWd → Option (Finset ℕ)
  | [] => none
  | [x] => if x = {0} then some {10} else some {11}
  | x :: _ :: _ => if x = {0} then some {12} else some {13}

/-- The observation table produced by `initialize` on the alphabet
`[a, b]` against `teachC3`. -/
def tTBL : OTable :=
  ⟨[laT, lbT], [waT, wbT], [epsW], [waT, wbT],
   [([{0}], [([∅], some {10}), ([{0}], some {12}), ([{1}], some {13})]),
    ([{1}], [([∅], some {11}), ([{0}], some {12}), ([{1}], some {13})])]⟩

/-- The table produced by `initialize` on the empty alphabet: the single
row `ε`, no columns, no long prefixes. -/
def tEps : OTable := ⟨[], [], [epsW], [], []⟩

/-- The empty observation table (before initialisation). -/
def tNil : OTable := ⟨[], [], [], [], []⟩

/-- `tNil` after a `make_consistent` with witness letter `a` and column
`[a]`: the column `[a, a]` is registered with no cells. -/
def tNilMC : OTable := ⟨[], [⟨[laT, laT]⟩], [], [], [([{0}, {0}], [])]⟩

/-- `tEps` after `add_counterexample([a], ·)`: the prefix `[a]` joins
`S`. -/
def tEpsCE : OTable := ⟨[], [], [epsW, waT], [], []⟩

/-- A one-letter output word used as a counterexample reply. -/
def wOut9 : Word := ⟨[Letter.sym {9}]⟩

/-- A deterministic teacher for the `make_consistent` instance: the reply's
last letter is `{5}` on queries of length ≤ 2, `{6}` at length 3 and `{7}`
beyond. -/
def teachC2 : CWd → Option (Finset ℕ)
  | [] => none
  | [_] => some {5}
  | [_, _] => some {5}
  | [_, _, _] => some {6}
  | _ => some {7}

/-- A table over the alphabet `[a]` with `S = [ε, [a]]`, `SA = [[a,a]]`,
`D = [[a]]`, filled against `teachC2`: the rows of `ε` and `[a]` coincide
while the teacher distinguishes their `a`-extensions at column `[a]`. -/
def tC2 : OTable :=
  ⟨[laT], [waT], [epsW, waT], [waaT],
   [([{0}], [([∅], some {5}), ([{0}], some {5}), ([{0}, {0}], some {6})])]⟩

/-- `tC2` after `make_consistent` with witness letter `a` and column
`[a]`: the new column `[a, a]` separates the rows of `ε` and `[a]`. -/
def tC2r : OTable :=
  ⟨[laT], [waT, waaT], [epsW, waT], [waaT],
   [([{0}], [([∅], some {5}), ([{0}], some {5}), ([{0}, {0}], some {6})]),
    ([{0}, {0}], [([∅], some {5}), ([{0}], some {6}), ([{0}, {0}], some {7})])]⟩

/-! ## Theorems -/

@[simp] theorem KNode_inp_mk (i o : Letter) (c : List KNode) : (KNode.mk i o c).inp = i := rfl

@[simp] theorem KNode_out_mk (i o : Letter) (c : List KNode) : (KNode.mk i o c).out = o := rfl

@[simp] theorem KNode_children_mk (i o : Letter) (c : List KNode) :
    (KNode.mk i o c).children = c := rfl

theorem pyEqL_refl (a : Letter) : pyEqL a a = true := by simp [pyEqL]

theorem pyEqL_iff {a b : Letter} : pyEqL a b = true ↔ a.canon = b.canon := by
  simp [pyEqL]

theorem pyEqW_refl (u : Word) : pyEqW u u = true := by simp [pyEqW]

theorem pyEqW_iff {u v : Word} : pyEqW u v = true ↔ cwW u = cwW v := by
  simp [pyEqW]

theorem mkWord_of_normalized {w : Word} (h : normalizedW w = true) :
    mkWord w.letters = w := by
  obtain ⟨ls⟩ := w
  match ls with
  | [] => rfl
  | [l] => rfl
  | l :: m :: rest =>
    simp only [normalizedW, Bool.not_eq_true'] at h
    simp [mkWord, h]

theorem mkWord_cons_not_inst {l : Letter} (rest : List Letter)
    (h : l.isEmptyInst = false) : mkWord (l :: rest) = ⟨l :: rest⟩ := by
  match rest with
  | [] => rfl
  | m :: ms => simp [mkWord, h]

theorem wordAdd_eps_left (w : Word) : wordAdd epsW w = mkWord w.letters := by
  simp [wordAdd, epsW, Letter.isEmptyInst]

theorem wordAdd_cons_not_inst {u : Word} {l : Letter} {rest : List Letter}
    (hu : u.letters = l :: rest) (h : l.isEmptyInst = false) (v : Word) :
    wordAdd u v = ⟨u.letters ++ v.letters⟩ := by
  obtain ⟨ls⟩ := u
  simp only at hu
  subst hu
  simp only [wordAdd]
  rw [if_neg (by simp [h])]
  rw [List.cons_append]
  exact mkWord_cons_not_inst _ h

theorem wordAdd_nil_left {u : Word} (hu : u.letters = []) (v : Word) :
    wordAdd u v = mkWord v.letters := by
  rw [wordAdd, hu]
  simp

/-- Claim C9, counterexample.  The one-letter empty word is *not* a two-sided
identity for `Word.__add__`: concatenating it on the right appends an empty
letter instead of being absorbed (`[Letter('x')] + [EmptyLetter] ==
[Letter('x'), EmptyLetter] ≠ [Letter('x')]`), and on the left it fails for
the constructible non-normalised word `Word([ε,ε,x])`, whose stored letters
are `[ε,x]`. -/
theorem claim_C9_counterexample :
    pyEqW (wordAdd ⟨[Letter.sym {0}]⟩ epsW) ⟨[Letter.sym {0}]⟩ = false ∧
    pyEqW (wordAdd epsW (mkWord [Letter.empty, Letter.empty, Letter.sym {0}]))
        (mkWord [Letter.empty, Letter.empty, Letter.sym {0}]) = false := by
  constructor
  · rfl
  · rfl

/-- Claim C9, amended.  For every normalised word `w` (the output of the
`Word` constructor applied to a list not starting with two-or-more letters
headed by an `EmptyLetter` instance), left concatenation of the empty-letter
word yields `w` itself: the leading empty letter is absorbed.  Right
concatenation is *not* an identity: unless `w` is itself a one-letter
`EmptyLetter` word, `w + [ε]` has the empty letter appended at the end. -/
theorem claim_C9_empty_letter_identity :
    (∀ w : Word, normalizedW w = true → wordAdd epsW w = w) ∧
    (∀ w : Word, normalizedW w = true →
      (∀ l, w.letters = [l] → l.isEmptyInst = false) →
      (wordAdd w epsW).letters = w.letters ++ [Letter.empty]) := by
  constructor
  · intro w hw
    rw [wordAdd_eps_left, mkWord_of_normalized hw]
  · intro w hw hone
    match hu : w.letters with
    | [] =>
      rw [wordAdd_nil_left hu]
      simp [hu, mkWord, epsW]
    | [l] =>
      have hl := hone l hu
      rw [wordAdd_cons_not_inst hu hl]
      simp [hu, epsW]
    | l :: m :: rest =>
      have hl : l.isEmptyInst = false := by
        have := hw
        unfold normalizedW at this
        rw [hu] at this
        simpa using this
      rw [wordAdd_cons_not_inst hu hl]
      simp [hu, epsW]

/-- Witness for the amended C9 theorem at the concrete word `[Letter('x')]`. -/
theorem claim_C9_empty_letter_identity_witness :
    wordAdd epsW ⟨[Letter.sym {7}]⟩ = ⟨[Letter.sym {7}]⟩ ∧
    (wordAdd ⟨[Letter.sym {7}]⟩ epsW).letters = [Letter.sym {7}] ++ [Letter.empty] := by
  constructor
  · exact claim_C9_empty_letter_identity.1 ⟨[Letter.sym {7}]⟩ (by decide)
  · refine claim_C9_empty_letter_identity.2 ⟨[Letter.sym {7}]⟩ (by decide) ?_
    intro l hl
    simp only [List.cons.injEq, and_true] at hl
    rw [← hl]
    rfl

theorem playSteps_length {A : AutomataM} {ls : List Letter} {si : ℕ}
    {os : List Letter} {ss : List ℕ} (h : playSteps A ls si = some (os, ss)) :
    os.length = ls.length := by
  induction ls generalizing si os ss with
  | nil =>
    simp only [playSteps] at h
    cases h
    rfl
  | cons l rest ih =>
    simp only [playSteps] at h
    cases hv : visitA A si l with
    | none => simp [hv] at h
    | some p =>
      cases hp : playSteps A rest p.2 with
      | none => simp [hv, hp] at h
      | some q =>
        simp only [hv, hp, Option.some_bind, Option.map_some', Option.some.injEq,
          Prod.mk.injEq] at h
        obtain ⟨rfl, rfl⟩ := h
        simp [ih hp]

theorem mkWord_length (ls : List Letter) :
    (mkWord ls).letters.length = ls.length ∨
    (2 ≤ ls.length ∧ (mkWord ls).letters.length + 1 = ls.length) := by
  match ls with
  | [] => left; rfl
  | [l] => left; rfl
  | l :: m :: rest =>
    by_cases h : l.isEmptyInst
    · right
      constructor
      · simp
      · simp [mkWord, h]
    · left
      simp only [Bool.not_eq_true] at h
      rw [mkWord_cons_not_inst _ h]

theorem playSteps_total {A : AutomataM} {ls : List Letter}
    (hclosed : ∀ st ∈ A.states, ∀ tr ∈ st.transitions, tr.output_state < A.states.length)
    (htotal : ∀ st ∈ A.states, ∀ l ∈ ls, ∃ tr ∈ st.transitions, pyEqL tr.input_letter l = true) :
    ∀ si, si < A.states.length → (playSteps A ls si).isSome := by
  induction ls with
  | nil => intro si _; simp [playSteps]
  | cons l rest ih =>
    intro si hsi
    have hst : ∃ st, A.states[si]? = some st ∧ st ∈ A.states :=
      ⟨A.states[si], List.getElem?_eq_getElem hsi, List.getElem_mem hsi⟩
    obtain ⟨st, hget, hmem⟩ := hst
    obtain ⟨tr, htr, heq⟩ := htotal st hmem l (by simp)
    have hfind : (st.transitions.find? (fun tr => pyEqL tr.input_letter l)).isSome := by
      rw [List.find?_isSome]
      exact ⟨tr, htr, heq⟩
    obtain ⟨tr', hfind'⟩ := Option.isSome_iff_exists.mp hfind
    have hvis : visitA A si l = some (tr'.output_letter, tr'.output_state) := by
      simp [visitA, hget, hfind']
    have htr'mem : tr' ∈ st.transitions := List.mem_of_find?_eq_some hfind'
    have hlt : tr'.output_state < A.states.length := hclosed st hmem tr' htr'mem
    have hrest := ih (fun st hst l hl => htotal st hst l (by simp [hl])) tr'.output_state hlt
    obtain ⟨q, hq⟩ := Option.isSome_iff_exists.mp hrest
    simp [playSteps, hvis, hq]

/-- Claim C6, counterexample.  The automaton `autoC6` is complete for the
alphabet `{Letter({0})}` (exactly one transition per input letter at every
state, successors in range), and the word `wC6 = [Letter({0}), Letter({0})]`
has length 2 ≥ 1, yet `play_word` returns an output word of length 1: the
output letters are `[EmptyLetter, EmptyLetter]` and the `Word` constructor
drops the leading empty letter. -/
theorem claim_C6_counterexample :
    (∀ st ∈ autoC6.states, ∀ l ∈ wC6.letters,
      ∃ tr ∈ st.transitions, pyEqL tr.input_letter l = true) ∧
    (∀ st ∈ autoC6.states, ∀ tr ∈ st.transitions,
      tr.output_state < autoC6.states.length) ∧
    1 ≤ wC6.letters.length ∧
    (∃ ow vs, playWord autoC6 wC6 0 = some (ow, vs) ∧
      ow.letters.length ≠ wC6.letters.length) := by
  refine ⟨by decide, by decide, by decide, ⟨⟨[Letter.empty]⟩, [0, 0], by decide, by decide⟩⟩

/-- Claim C6, amended.  Whenever `play_word` returns, the output word has
the length of the input word, or — when the input has length at least two
and the first output letter is an `EmptyLetter` instance that the `Word`
constructor drops — that length minus one.  Moreover, on an automaton all of
whose states carry a transition for every letter of the word (with successor
indices in range), `play_word` does return. -/
theorem claim_C6_play_word_length :
    (∀ (A : AutomataM) (w : Word) (si : ℕ) (ow : Word) (vs : List ℕ),
        playWord A w si = some (ow, vs) →
        ow.letters.length = w.letters.length ∨
          (2 ≤ w.letters.length ∧ ow.letters.length + 1 = w.letters.length)) ∧
    (∀ (A : AutomataM) (w : Word) (si : ℕ),
        w.letters ≠ [] → si < A.states.length →
        (∀ st ∈ A.states, ∀ tr ∈ st.transitions, tr.output_state < A.states.length) →
        (∀ st ∈ A.states, ∀ l ∈ w.letters,
          ∃ tr ∈ st.transitions, pyEqL tr.input_letter l = true) →
        (playWord A w si).isSome) := by
  constructor
  · intro A w si ow vs h
    rw [playWord] at h
    by_cases hw : w.letters.isEmpty
    · rw [if_pos hw] at h
      cases h
    · rw [if_neg hw] at h
      cases hp : playSteps A w.letters si with
      | none => rw [hp] at h; cases h
      | some p =>
        rw [hp] at h
        simp only [Option.map_some', Option.some.injEq, Prod.mk.injEq] at h
        obtain ⟨rfl, -⟩ := h
        have hlen := playSteps_length hp
        rcases mkWord_length p.1 with h1 | h1
        · left; rw [h1, hlen]
        · right
          rw [hlen] at h1
          exact h1
  · intro A w si hne hsi hclosed htotal
    rw [playWord]
    rw [if_neg (by simpa using hne)]
    have := playSteps_total hclosed htotal si hsi
    obtain ⟨p, hp⟩ := Option.isSome_iff_exists.mp this
    simp [hp]

/-- Witness for the amended C6 theorem at the concrete complete automaton
`autoC6w` and the one-letter word `wC6w`. -/
theorem claim_C6_play_word_length_witness :
    (playWord autoC6w wC6w 0).isSome = true ∧
    ((⟨[Letter.sym {1}]⟩ : Word).letters.length = wC6w.letters.length ∨
      (2 ≤ wC6w.letters.length ∧
        (⟨[Letter.sym {1}]⟩ : Word).letters.length + 1 = wC6w.letters.length)) := by
  constructor
  · exact claim_C6_play_word_length.2 autoC6w wC6w 0 (by decide) (by decide)
      (by decide) (by decide)
  · exact claim_C6_play_word_length.1 autoC6w wC6w 0 ⟨[Letter.sym {1}]⟩ [0] (by decide)

theorem findChildPy_some {cs : List KNode} {i1 : Letter}
    {pre : List KNode} {c : KNode} {post : List KNode}
    (h : findChildPy cs i1 = some (pre, c, post)) :
    cs = pre ++ c :: post ∧ (∀ x ∈ pre, pyEqL x.inp i1 = false) ∧ pyEqL c.inp i1 = true := by
  induction cs generalizing pre with
  | nil => cases h
  | cons c0 rest ih =>
    rw [findChildPy] at h
    by_cases h0 : pyEqL c0.inp i1
    · rw [if_pos h0] at h
      simp only [Option.some.injEq, Prod.mk.injEq] at h
      obtain ⟨rfl, rfl, rfl⟩ := h
      exact ⟨rfl, by simp, h0⟩
    · rw [if_neg h0] at h
      cases hr : findChildPy rest i1 with
      | none => rw [hr] at h; cases h
      | some t =>
        rw [hr] at h
        simp only [Option.map_some', Option.some.injEq, Prod.mk.injEq] at h
        obtain ⟨rfl, rfl, rfl⟩ := h
        obtain ⟨he, hpre, hc⟩ := ih hr
        refine ⟨by simp [he], ?_, hc⟩
        intro x hx
        rcases List.mem_cons.mp hx with rfl | hx
        · simpa using h0
        · exact hpre x hx

theorem findChildPy_none {cs : List KNode} {i1 : Letter}
    (h : findChildPy cs i1 = none) : ∀ x ∈ cs, pyEqL x.inp i1 = false := by
  induction cs with
  | nil => simp
  | cons c0 rest ih =>
    rw [findChildPy] at h
    by_cases h0 : pyEqL c0.inp i1
    · rw [if_pos h0] at h; cases h
    · rw [if_neg h0] at h
      intro x hx
      rcases List.mem_cons.mp hx with rfl | hx
      · simpa using h0
      · cases hr : findChildPy rest i1 with
        | none => exact ih hr x hx
        | some t => rw [hr] at h; cases h

theorem findChildPy_reconstruct {pre : List KNode} {c : KNode} {post : List KNode} {i1 : Letter}
    (hpre : ∀ x ∈ pre, pyEqL x.inp i1 = false) (hc : pyEqL c.inp i1 = true) :
    findChildPy (pre ++ c :: post) i1 = some (pre, c, post) := by
  induction pre with
  | nil => simp [findChildPy, hc]
  | cons x rest ih =>
    have hx : pyEqL x.inp i1 = false := hpre x (by simp)
    rw [List.cons_append, findChildPy]
    rw [if_neg (by simp [hx])]
    rw [ih (fun y hy => hpre y (by simp [hy]))]
    rfl

theorem findChildPy_congr {cs : List KNode} {i1 i1' : Letter}
    (h : i1.canon = i1'.canon) : findChildPy cs i1 = findChildPy cs i1' := by
  induction cs with
  | nil => rfl
  | cons c rest ih =>
    rw [findChildPy, findChildPy]
    have : pyEqL c.inp i1 = pyEqL c.inp i1' := by simp [pyEqL, h]
    rw [this, ih]

theorem lookupNode_head_fail {n : KNode} {i0 : Letter} {rest : List Letter}
    (h : pyEqL i0 n.inp = false) : lookupNode n (i0 :: rest) = none := by
  match rest with
  | [] => simp [lookupNode, h]
  | i1 :: irest2 => simp [lookupNode, h]

theorem lookupNode_shape {n : KNode} {ils : List Letter} {outs : List Letter}
    (h : lookupNode n ils = some outs) :
    outs.length = ils.length ∧ ∃ tail, outs = n.out :: tail := by
  match ils with
  | [] => simp [lookupNode] at h
  | [i0] =>
    rw [lookupNode] at h
    by_cases h0 : pyEqL i0 n.inp
    · rw [if_pos h0] at h
      cases h
      exact ⟨rfl, [], rfl⟩
    · rw [if_neg h0] at h; cases h
  | i0 :: i1 :: irest2 =>
    rw [lookupNode] at h
    by_cases h0 : pyEqL i0 n.inp
    · rw [if_pos h0] at h
      cases hf : findChildPy n.children i1 with
      | none => rw [hf] at h; dsimp only at h; cases h
      | some t =>
        rw [hf] at h
        dsimp only at h
        cases hl : lookupNode t.2.1 (i1 :: irest2) with
        | none => rw [hl] at h; cases h
        | some outs1 =>
          rw [hl] at h
          simp only [Option.map_some', Option.some.injEq] at h
          subst h
          have := (lookupNode_shape hl).1
          exact ⟨by simp [this], outs1, rfl⟩
    · rw [if_neg h0] at h; cases h

theorem insertNode_spec {n : KNode} {ils ols outs : List Letter} {n' : KNode}
    (h : insertNode n ils ols = some (outs, n')) :
    n'.inp = n.inp ∧ n'.out = n.out ∧ outs.length = ils.length ∧
      List.Forall₂ (fun a b => Letter.canon a = Letter.canon b) outs ols := by
  match ils, ols with
  | [], ols => simp [insertNode] at h
  | _ :: _, [] => simp [insertNode] at h
  | [i0], o0 :: orest =>
    rw [insertNode] at h
    by_cases hc : pyEqL i0 n.inp ∧ pyEqL o0 n.out ∧ ([] : List Letter).length = orest.length
    · rw [if_pos hc] at h
      simp only [Option.some.injEq, Prod.mk.injEq] at h
      obtain ⟨rfl, rfl⟩ := h
      obtain ⟨-, h2, h3⟩ := hc
      have : orest = [] := by
        cases orest with
        | nil => rfl
        | cons a b => simp at h3
      subst this
      exact ⟨rfl, rfl, rfl, by simp [(pyEqL_iff.mp h2).symm]⟩
    · rw [if_neg hc] at h; cases h
  | _ :: _ :: _, [_] => simp [insertNode] at h
  | i0 :: i1 :: irest2, o0 :: o1 :: orest2 =>
    rw [insertNode] at h
    by_cases hc : pyEqL i0 n.inp ∧ pyEqL o0 n.out ∧
        (i1 :: irest2).length = (o1 :: orest2).length
    · rw [if_pos hc] at h
      cases hf : findChildPy n.children i1 with
      | some t =>
        rw [hf] at h
        dsimp only at h
        by_cases ho : pyEqL t.2.1.out o1
        · rw [if_pos ho] at h
          cases hi : insertNode t.2.1 (i1 :: irest2) (o1 :: orest2) with
          | none => rw [hi] at h; cases h
          | some r =>
            rw [hi] at h
            simp only [Option.map_some', Option.some.injEq, Prod.mk.injEq] at h
            obtain ⟨rfl, rfl⟩ := h
            obtain ⟨-, -, hlen, hfa⟩ := insertNode_spec hi
            exact ⟨rfl, rfl, by simp [hlen],
              List.Forall₂.cons (pyEqL_iff.mp hc.2.1).symm hfa⟩
        · rw [if_neg ho] at h; cases h
      | none =>
        rw [hf] at h
        dsimp only at h
        cases hi : insertNode (KNode.mk i1 o1 []) (i1 :: irest2) (o1 :: orest2) with
        | none => rw [hi] at h; cases h
        | some r =>
          rw [hi] at h
          simp only [Option.map_some', Option.some.injEq, Prod.mk.injEq] at h
          obtain ⟨rfl, rfl⟩ := h
          obtain ⟨-, -, hlen, hfa⟩ := insertNode_spec hi
          exact ⟨rfl, rfl, by simp [hlen],
            List.Forall₂.cons (pyEqL_iff.mp hc.2.1).symm hfa⟩
    · rw [if_neg hc] at h; cases h

theorem lookup_after_insert {n : KNode} {ils ols outs : List Letter} {n' : KNode}
    (h : insertNode n ils ols = some (outs, n')) :
    ∀ k, 1 ≤ k → k ≤ ils.length → lookupNode n' (ils.take k) = some (outs.take k) := by
  match ils, ols with
  | [], ols => simp [insertNode] at h
  | _ :: _, [] => simp [insertNode] at h
  | [i0], o0 :: orest =>
    rw [insertNode] at h
    by_cases hc : pyEqL i0 n.inp ∧ pyEqL o0 n.out ∧ ([] : List Letter).length = orest.length
    · rw [if_pos hc] at h
      simp only [Option.some.injEq, Prod.mk.injEq] at h
      obtain ⟨rfl, rfl⟩ := h
      intro k hk1 hk2
      simp only [List.length_cons, List.length_nil] at hk2
      have : k = 1 := by omega
      subst this
      simp [lookupNode, hc.1]
    · rw [if_neg hc] at h; cases h
  | _ :: _ :: _, [_] => simp [insertNode] at h
  | i0 :: i1 :: irest2, o0 :: o1 :: orest2 =>
    rw [insertNode] at h
    by_cases hc : pyEqL i0 n.inp ∧ pyEqL o0 n.out ∧
        (i1 :: irest2).length = (o1 :: orest2).length
    · rw [if_pos hc] at h
      cases hf : findChildPy n.children i1 with
      | some t =>
        rw [hf] at h
        dsimp only at h
        by_cases ho : pyEqL t.2.1.out o1
        · rw [if_pos ho] at h
          cases hi : insertNode t.2.1 (i1 :: irest2) (o1 :: orest2) with
          | none => rw [hi] at h; cases h
          | some r =>
            rw [hi] at h
            simp only [Option.map_some', Option.some.injEq, Prod.mk.injEq] at h
            obtain ⟨rfl, rfl⟩ := h
            obtain ⟨hfe, hfpre, hfc⟩ := findChildPy_some hf
            obtain ⟨hrinp, -, -, -⟩ := insertNode_spec hi
            intro k hk1 hk2
            match k with
            | 1 =>
              simp [lookupNode, List.take, hc.1]
            | k' + 2 =>
              simp only [List.take_succ_cons]
              rw [lookupNode]
              rw [if_pos (by simpa using hc.1)]
              have hfc' : findChildPy (t.1 ++ r.2 :: t.2.2) i1 = some (t.1, r.2, t.2.2) :=
                findChildPy_reconstruct hfpre (by rw [pyEqL_iff, hrinp]; exact pyEqL_iff.mp hfc)
              simp only [KNode_children_mk, KNode_out_mk]
              rw [hfc']
              dsimp only
              have ih := lookup_after_insert hi (k' + 1) (by omega)
                (by simp only [List.length_cons] at hk2 ⊢; omega)
              simp only [List.take_succ_cons] at ih
              rw [ih]
              simp
        · rw [if_neg ho] at h; cases h
      | none =>
        rw [hf] at h
        dsimp only at h
        cases hi : insertNode (KNode.mk i1 o1 []) (i1 :: irest2) (o1 :: orest2) with
        | none => rw [hi] at h; cases h
        | some r =>
          rw [hi] at h
          simp only [Option.map_some', Option.some.injEq, Prod.mk.injEq] at h
          obtain ⟨rfl, rfl⟩ := h
          have hfpre := findChildPy_none hf
          obtain ⟨hrinp, -, -, -⟩ := insertNode_spec hi
          intro k hk1 hk2
          match k with
          | 1 =>
            simp [lookupNode, List.take, hc.1]
          | k' + 2 =>
            simp only [List.take_succ_cons]
            rw [lookupNode]
            rw [if_pos (by simpa using hc.1)]
            have hfc' : findChildPy (n.children ++ [r.2]) i1 = some (n.children, r.2, []) :=
              findChildPy_reconstruct hfpre (by rw [pyEqL_iff, hrinp]; simp [KNode.inp])
            simp only [KNode_children_mk, KNode_out_mk]
            rw [hfc']
            dsimp only
            have ih := lookup_after_insert hi (k' + 1) (by omega)
              (by simp only [List.length_cons] at hk2 ⊢; omega)
            simp only [List.take_succ_cons] at ih
            rw [ih]
            simp
    · rw [if_neg hc] at h; cases h

theorem findChildPy_append_right {cs : List KNode} {i1 : Letter}
    {t : List KNode × KNode × List KNode} (x : KNode)
    (h : findChildPy cs i1 = some t) :
    findChildPy (cs ++ [x]) i1 = some (t.1, t.2.1, t.2.2 ++ [x]) := by
  obtain ⟨he, hpre, hc⟩ := findChildPy_some h
  rw [he, List.append_assoc, List.cons_append]
  exact findChildPy_reconstruct hpre hc

theorem findChildPy_matched_node {pre2 : List KNode} {c2 r2 : KNode} {post2 : List KNode}
    {i1 : Letter} (hc2 : pyEqL c2.inp i1 = false) (hr2 : pyEqL r2.inp i1 = false) :
    (findChildPy (pre2 ++ c2 :: post2) i1).map (fun t => t.2.1) =
      (findChildPy (pre2 ++ r2 :: post2) i1).map (fun t => t.2.1) := by
  induction pre2 with
  | nil =>
    simp only [List.nil_append]
    rw [findChildPy, findChildPy, if_neg (by simp [hc2]), if_neg (by simp [hr2])]
    cases hp : findChildPy post2 i1 with
    | none => simp
    | some t => simp
  | cons y rest ih =>
    simp only [List.cons_append]
    rw [findChildPy, findChildPy]
    by_cases hy : pyEqL y.inp i1
    · rw [if_pos hy, if_pos hy]
      simp
    · rw [if_neg hy, if_neg hy]
      cases h1 : findChildPy (rest ++ c2 :: post2) i1 with
      | none =>
        cases h2 : findChildPy (rest ++ r2 :: post2) i1 with
        | none => simp
        | some t2 =>
          have := ih
          rw [h1, h2] at this
          simp at this
      | some t1 =>
        cases h2 : findChildPy (rest ++ r2 :: post2) i1 with
        | none =>
          have := ih
          rw [h1, h2] at this
          simp at this
        | some t2 =>
          have := ih
          rw [h1, h2] at this
          simp only [Option.map_some', Option.some.injEq] at this
          simp [this]

theorem lookup_stable_insert {ils : List Letter} {n : KNode} {outs ils' ols' outs2 : List Letter}
    {n' : KNode} (hl : lookupNode n ils = some outs)
    (hi : insertNode n ils' ols' = some (outs2, n')) :
    lookupNode n' ils = some outs := by
  obtain ⟨hinp, hout, -, -⟩ := insertNode_spec hi
  match ils with
  | [] => simp [lookupNode] at hl
  | [i0] =>
    rw [lookupNode] at hl ⊢
    by_cases h0 : pyEqL i0 n.inp
    · rw [if_pos h0] at hl
      rw [if_pos (by rw [pyEqL_iff, hinp]; exact pyEqL_iff.mp h0)]
      rw [hout]
      exact hl
    · rw [if_neg h0] at hl; cases hl
  | i0 :: i1 :: irest2 =>
    rw [lookupNode] at hl
    by_cases h0 : pyEqL i0 n.inp
    rotate_left
    · rw [if_neg h0] at hl; cases hl
    rw [if_pos h0] at hl
    cases hf : findChildPy n.children i1 with
    | none => rw [hf] at hl; dsimp only at hl; cases hl
    | some t =>
      rw [hf] at hl
      dsimp only at hl
      cases hlc : lookupNode t.2.1 (i1 :: irest2) with
      | none => rw [hlc] at hl; simp at hl
      | some outs1 =>
        rw [hlc] at hl
        simp only [Option.map_some', Option.some.injEq] at hl
        subst hl
        have h0' : pyEqL i0 n'.inp = true := by
          rw [pyEqL_iff, hinp]; exact pyEqL_iff.mp h0
        match ils', ols' with
        | [], _ => simp [insertNode] at hi
        | _ :: _, [] => simp [insertNode] at hi
        | [i0'], o0' :: orest' =>
          rw [insertNode] at hi
          by_cases hc' : pyEqL i0' n.inp ∧ pyEqL o0' n.out ∧
              ([] : List Letter).length = orest'.length
          · rw [if_pos hc'] at hi
            simp only [Option.some.injEq, Prod.mk.injEq] at hi
            obtain ⟨-, rfl⟩ := hi
            rw [lookupNode, if_pos h0, hf]
            dsimp only
            rw [hlc]
            rfl
          · rw [if_neg hc'] at hi; cases hi
        | _ :: _ :: _, [_] => simp [insertNode] at hi
        | i0' :: i1' :: irest2', o0' :: o1' :: orest2' =>
          rw [insertNode] at hi
          by_cases hc' : pyEqL i0' n.inp ∧ pyEqL o0' n.out ∧
              (i1' :: irest2').length = (o1' :: orest2').length
          rotate_left
          · rw [if_neg hc'] at hi; cases hi
          rw [if_pos hc'] at hi
          cases hf' : findChildPy n.children i1' with
          | some t' =>
            rw [hf'] at hi
            dsimp only at hi
            by_cases ho' : pyEqL t'.2.1.out o1'
            rotate_left
            · rw [if_neg ho'] at hi; cases hi
            rw [if_pos ho'] at hi
            cases hi2 : insertNode t'.2.1 (i1' :: irest2') (o1' :: orest2') with
            | none => rw [hi2] at hi; cases hi
            | some r =>
              rw [hi2] at hi
              simp only [Option.map_some', Option.some.injEq, Prod.mk.injEq] at hi
              obtain ⟨-, rfl⟩ := hi
              obtain ⟨hfe', hfpre', hfc'⟩ := findChildPy_some hf'
              obtain ⟨hrinp, -, -, -⟩ := insertNode_spec hi2
              rw [lookupNode, if_pos (by simpa using h0), KNode_children_mk,
                KNode_out_mk]
              by_cases hEq : Letter.canon i1 = Letter.canon i1'
              · have hsame : findChildPy n.children i1' = findChildPy n.children i1 :=
                  (findChildPy_congr hEq).symm
                rw [hsame, hf, Option.some.injEq] at hf'
                subst hf'
                have hrec := lookup_stable_insert hlc hi2
                have hfind : findChildPy (t.1 ++ r.2 :: t.2.2) i1 = some (t.1, r.2, t.2.2) := by
                  obtain ⟨-, hfpre, hfc⟩ := findChildPy_some hf
                  exact findChildPy_reconstruct hfpre
                    (by rw [pyEqL_iff, hrinp]; exact pyEqL_iff.mp hfc)
                rw [hfind]
                dsimp only
                rw [hrec]
                rfl
              · have hc2no : pyEqL t'.2.1.inp i1 = false := by
                  by_contra hcon
                  simp only [Bool.not_eq_false] at hcon
                  exact hEq ((pyEqL_iff.mp hcon).symm.trans (pyEqL_iff.mp hfc'))
                have hr2no : pyEqL r.2.inp i1 = false := by
                  rw [pyEqL, decide_eq_false_iff_not, hrinp]
                  intro hcon
                  rw [pyEqL, decide_eq_false_iff_not] at hc2no
                  exact hc2no hcon
                have hmn := @findChildPy_matched_node t'.1 _ _ t'.2.2 _
                  hc2no hr2no
                rw [← hfe', hf] at hmn
                cases hfn2 : findChildPy (t'.1 ++ r.2 :: t'.2.2) i1 with
                | none => rw [hfn2] at hmn; simp at hmn
                | some t2 =>
                  rw [hfn2] at hmn
                  simp only [Option.map_some', Option.some.injEq] at hmn
                  dsimp only
                  rw [← hmn, hlc]
                  rfl
          | none =>
            rw [hf'] at hi
            dsimp only at hi
            cases hi2 : insertNode (KNode.mk i1' o1' []) (i1' :: irest2') (o1' :: orest2') with
            | none => rw [hi2] at hi; cases hi
            | some r =>
              rw [hi2] at hi
              simp only [Option.map_some', Option.some.injEq, Prod.mk.injEq] at hi
              obtain ⟨-, rfl⟩ := hi
              rw [lookupNode, if_pos (by simpa using h0), KNode_children_mk,
                KNode_out_mk]
              rw [findChildPy_append_right r.2 hf]
              dsimp only
              rw [hlc]
              rfl

theorem insert_conflict {p : List Letter} {n : KNode} {op q oq : List Letter}
    (hl : lookupNode n p = some op)
    (hlen : q.length = oq.length)
    (hpq : (q.take p.length).map Letter.canon = p.map Letter.canon)
    (hagree : (oq.take (p.length - 1)).map Letter.canon =
      (op.take (p.length - 1)).map Letter.canon)
    (hdis : ∀ a b, oq[p.length - 1]? = some a → op[p.length - 1]? = some b →
      Letter.canon a ≠ Letter.canon b) :
    insertNode n q oq = none := by
  match p with
  | [] => simp [lookupNode] at hl
  | [i0] =>
    rw [lookupNode] at hl
    by_cases h0 : pyEqL i0 n.inp
    rotate_left
    · rw [if_neg h0] at hl; cases hl
    rw [if_pos h0] at hl
    simp only [Option.some.injEq] at hl
    subst hl
    match q, oq with
    | [], _ => simp at hpq
    | _ :: _, [] => simp at hlen
    | q0 :: qrest, w0 :: wrest =>
      have hw0 : Letter.canon w0 ≠ Letter.canon n.out := by
        refine hdis w0 n.out ?_ ?_ <;> simp
      have hgate : ¬ pyEqL w0 n.out := by
        rw [pyEqL_iff]
        exact fun hcon => hw0 hcon
      match qrest, wrest, hlen with
      | [], [], _ =>
        rw [insertNode]
        rw [if_neg (by intro hcon; exact hgate hcon.2.1)]
      | [], w1 :: wr, hlen => simp at hlen
      | q1 :: qr, [], hlen => simp at hlen
      | q1 :: qr, w1 :: wr, _ =>
        rw [insertNode]
        rw [if_neg (by intro hcon; exact hgate hcon.2.1)]
  | i0 :: i1 :: p2 =>
    rw [lookupNode] at hl
    by_cases h0 : pyEqL i0 n.inp
    rotate_left
    · rw [if_neg h0] at hl; cases hl
    rw [if_pos h0] at hl
    cases hfch : findChildPy n.children i1 with
    | none => rw [hfch] at hl; simp at hl
    | some t =>
      rw [hfch] at hl
      dsimp only at hl
      cases hlc : lookupNode t.2.1 (i1 :: p2) with
      | none => rw [hlc] at hl; simp at hl
      | some op1 =>
        rw [hlc] at hl
        simp only [Option.map_some', Option.some.injEq] at hl
        subst hl
        match q, oq with
        | [], _ => simp at hpq
        | [q0], _ =>
          exfalso
          have hlpq := congrArg List.length hpq
          simp at hlpq
        | q0 :: q1 :: qrest, oq =>
          match oq, hlen with
          | [], hlen => simp at hlen
          | [w0], hlen => simp at hlen
          | w0 :: w1 :: wr, hlen =>
            simp only [List.length_cons, List.take_succ_cons, List.map_cons,
              List.cons.injEq] at hpq
            obtain ⟨hq0, hq1, hqrest⟩ := hpq
            simp only [List.length_cons, Nat.add_sub_cancel, List.take_succ_cons,
              List.map_cons, List.cons.injEq] at hagree
            obtain ⟨hw0, hagree1⟩ := hagree
            rw [insertNode]
            rw [if_pos ⟨by rw [pyEqL_iff, hq0]; exact pyEqL_iff.mp h0,
              by rw [pyEqL_iff]; exact hw0, by simpa using hlen⟩]
            rw [findChildPy_congr hq1, hfch]
            dsimp only
            obtain ⟨hop1len, op1tail, hop1⟩ := lookupNode_shape hlc
            match p2, hagree1 with
            | [], hagree1 =>
              have hop1nil : op1tail = [] := by
                rw [hop1] at hop1len
                simpa using hop1len
              have hne : Letter.canon w1 ≠ Letter.canon t.2.1.out :=
                hdis w1 t.2.1.out (by simp) (by simp [hop1, hop1nil])
              rw [if_neg (by rw [pyEqL_iff]; exact fun hcon => hne hcon.symm)]
            | p2h :: p2t, hagree1 =>
              simp only [List.length_cons, List.take_succ_cons, List.map_cons, hop1,
                List.cons.injEq] at hagree1
              obtain ⟨hw1, hagree2⟩ := hagree1
              rw [if_pos (by rw [pyEqL_iff]; exact hw1.symm)]
              have hrec : insertNode t.2.1 (q1 :: qrest) (w1 :: wr) = none := by
                refine insert_conflict hlc (by simpa using hlen) ?_ ?_ ?_
                · simp only [List.length_cons, List.take_succ_cons, List.map_cons,
                    List.cons.injEq]
                  exact ⟨hq1, by simpa only [List.length_cons, List.map_cons] using hqrest⟩
                · simp only [List.length_cons, Nat.add_sub_cancel, List.take_succ_cons,
                    List.map_cons, hop1, List.cons.injEq]
                  exact ⟨hw1, hagree2⟩
                · intro a b ha hb
                  refine hdis a b ?_ ?_
                  · simp only [List.length_cons, Nat.add_sub_cancel,
                      List.getElem?_cons_succ] at ha ⊢
                    exact ha
                  · simp only [List.length_cons, Nat.add_sub_cancel,
                      List.getElem?_cons_succ, hop1] at hb ⊢
                    exact hb
              rw [hrec]
              rfl

theorem firstLookup_pre_none {pre : List KNode} {r : KNode} {post : List KNode}
    {ils outs : List Letter} (hpre : ∀ x ∈ pre, lookupNode x ils = none)
    (hr : lookupNode r ils = some outs) :
    firstLookup (pre ++ r :: post) ils = some outs := by
  induction pre with
  | nil =>
    rw [List.nil_append, firstLookup, hr]
  | cons x rest ih =>
    rw [List.cons_append, firstLookup, hpre x (by simp)]
    exact ih (fun y hy => hpre y (by simp [hy]))

theorem firstLookup_some_mem {rs : List KNode} {ils outs : List Letter}
    (h : firstLookup rs ils = some outs) : ∃ r ∈ rs, lookupNode r ils = some outs := by
  induction rs with
  | nil => cases h
  | cons r rest ih =>
    rw [firstLookup] at h
    cases hr : lookupNode r ils with
    | some o =>
      rw [hr] at h
      cases h
      exact ⟨r, by simp, hr⟩
    | none =>
      rw [hr] at h
      obtain ⟨r', hmem, hr'⟩ := ih h
      exact ⟨r', by simp [hmem], hr'⟩

theorem firstLookup_isSome_of_mem {rs : List KNode} {ils : List Letter}
    (h : ∃ r ∈ rs, (lookupNode r ils).isSome) : (firstLookup rs ils).isSome := by
  induction rs with
  | nil => obtain ⟨r, hm, -⟩ := h; cases hm
  | cons r0 rest ih =>
    rw [firstLookup]
    cases hr : lookupNode r0 ils with
    | some o => simp
    | none =>
      obtain ⟨r, hm, hs⟩ := h
      rcases List.mem_cons.mp hm with rfl | hm
      · rw [hr] at hs; cases hs
      · exact ih ⟨r, hm, hs⟩

theorem addWord_success {t0 : KTree} {u v : Word} {t1 : KTree}
    (h : addWord t0 u v = some t1) :
    u.letters.length = v.letters.length ∧
    ∃ i0 irest pre r' post outs,
      u.letters = i0 :: irest ∧
      t1.roots = pre ++ r' :: post ∧
      (∀ x ∈ pre, pyEqL x.inp i0 = false) ∧
      List.Forall₂ (fun a b => Letter.canon a = Letter.canon b) outs v.letters ∧
      (∀ k, 1 ≤ k → k ≤ u.letters.length →
        lookupNode r' (u.letters.take k) = some (outs.take k)) := by
  rw [addWord] at h
  by_cases hlen : u.letters.length = v.letters.length
  rotate_left
  · rw [if_neg hlen] at h; cases h
  rw [if_pos hlen] at h
  refine ⟨hlen, ?_⟩
  cases huls : u.letters with
  | nil => rw [huls] at h; simp [addLetters] at h
  | cons i0 irest =>
  cases hvls : v.letters with
  | nil => rw [huls, hvls] at h; simp [addLetters] at h
  | cons o0 orest =>
    rw [huls, hvls] at h
    rw [addLetters] at h
    cases hf : findChildPy t0.roots i0 with
    | some tr =>
      rw [hf] at h
      dsimp only at h
      by_cases ho : pyEqL tr.2.1.out o0
      rotate_left
      · rw [if_neg ho] at h; cases h
      rw [if_pos ho] at h
      cases hi : insertNode tr.2.1 (i0 :: irest) (o0 :: orest) with
      | none => rw [hi] at h; cases h
      | some r =>
        rw [hi] at h
        simp only [Option.map_some', Option.some.injEq] at h
        subst h
        obtain ⟨-, hfpre, -⟩ := findChildPy_some hf
        obtain ⟨-, -, -, hfa⟩ := @insertNode_spec _ _ _ r.1 r.2
          (by simpa using hi)
        exact ⟨i0, irest, tr.1, r.2, tr.2.2, r.1, rfl, rfl, hfpre, hfa,
          fun k hk1 hk2 => lookup_after_insert (by simpa using hi) k hk1 hk2⟩
    | none =>
      rw [hf] at h
      dsimp only at h
      cases hi : insertNode (KNode.mk i0 o0 []) (i0 :: irest) (o0 :: orest) with
      | none => rw [hi] at h; cases h
      | some r =>
        rw [hi] at h
        simp only [Option.map_some', Option.some.injEq] at h
        subst h
        have hfpre := findChildPy_none hf
        obtain ⟨-, -, -, hfa⟩ := @insertNode_spec _ _ _ r.1 r.2
          (by simpa using hi)
        exact ⟨i0, irest, t0.roots, r.2, [], r.1, rfl, rfl, hfpre, hfa,
          fun k hk1 hk2 => lookup_after_insert (by simpa using hi) k hk1 hk2⟩

theorem addWord_roots {t : KTree} {u' o' : Word} {t2 : KTree}
    (h : addWord t u' o' = some t2) :
    (∃ x, t2.roots = t.roots ++ [x]) ∨
    (∃ pre c post outs c', t.roots = pre ++ c :: post ∧ t2.roots = pre ++ c' :: post ∧
      insertNode c u'.letters o'.letters = some (outs, c')) := by
  rw [addWord] at h
  by_cases hlen : u'.letters.length = o'.letters.length
  rotate_left
  · rw [if_neg hlen] at h; cases h
  rw [if_pos hlen] at h
  cases huls : u'.letters with
  | nil => rw [huls] at h; simp [addLetters] at h
  | cons i0 irest =>
  cases hvls : o'.letters with
  | nil => rw [huls, hvls] at h; simp [addLetters] at h
  | cons o0 orest =>
    rw [huls, hvls] at h
    rw [addLetters] at h
    cases hf : findChildPy t.roots i0 with
    | some tr =>
      rw [hf] at h
      dsimp only at h
      by_cases ho : pyEqL tr.2.1.out o0
      rotate_left
      · rw [if_neg ho] at h; cases h
      rw [if_pos ho] at h
      cases hi : insertNode tr.2.1 (i0 :: irest) (o0 :: orest) with
      | none => rw [hi] at h; cases h
      | some r =>
        rw [hi] at h
        simp only [Option.map_some', Option.some.injEq] at h
        subst h
        obtain ⟨he, -, -⟩ := findChildPy_some hf
        exact Or.inr ⟨tr.1, tr.2.1, tr.2.2, r.1, r.2, he, rfl, by simpa using hi⟩
    | none =>
      rw [hf] at h
      dsimp only at h
      cases hi : insertNode (KNode.mk i0 o0 []) (i0 :: irest) (o0 :: orest) with
      | none => rw [hi] at h; cases h
      | some r =>
        rw [hi] at h
        simp only [Option.map_some', Option.some.injEq] at h
        subst h
        exact Or.inl ⟨r.2, rfl⟩

theorem addWord_stable {t : KTree} {ils : List Letter} {u' o' : Word} {t2 : KTree}
    (hl : (firstLookup t.roots ils).isSome) (ha : addWord t u' o' = some t2) :
    (firstLookup t2.roots ils).isSome := by
  obtain ⟨outs, houts⟩ := Option.isSome_iff_exists.mp hl
  obtain ⟨r, hmem, hr⟩ := firstLookup_some_mem houts
  rcases addWord_roots ha with ⟨x, hx⟩ | ⟨pre, c, post, outs2, c', hold, hnew, hi⟩
  · exact firstLookup_isSome_of_mem ⟨r, by simp [hx, hmem], by simp [hr]⟩
  · rw [hold] at hmem
    rcases List.mem_append.mp hmem with hpre | hcp
    · exact firstLookup_isSome_of_mem ⟨r, by simp [hnew, hpre], by simp [hr]⟩
    · rcases List.mem_cons.mp hcp with rfl | hpost
      · have := lookup_stable_insert hr hi
        exact firstLookup_isSome_of_mem ⟨c', by simp [hnew], by simp [this]⟩
      · exact firstLookup_isSome_of_mem ⟨r, by simp [hnew, hpost], by simp [hr]⟩

theorem resolveWord_tree {teacher : Word → Option Word} {t : KTree} {w v : Word}
    {t1 : KTree} {b : Bool} (h : resolveWord teacher t w = some (v, t1, b)) :
    t1 = t ∨ ∃ out, addWord t w out = some t1 := by
  rw [resolveWord] at h
  cases hg : getOutputWord t w with
  | some out =>
    rw [hg] at h
    simp only [Option.some.injEq, Prod.mk.injEq] at h
    exact Or.inl h.2.1.symm
  | none =>
    rw [hg] at h
    dsimp only at h
    cases ht : teacher w with
    | none => rw [ht] at h; cases h
    | some out =>
      rw [ht] at h
      dsimp only at h
      cases ha : addWord t w out with
      | none => rw [ha] at h; cases h
      | some t2 =>
        rw [ha] at h
        simp only [Option.map_some', Option.some.injEq, Prod.mk.injEq] at h
        exact Or.inr ⟨out, h.2.1 ▸ ha⟩

theorem runQueries_stable {t : KTree} {ils : List Letter}
    (qs : List ((Word → Option Word) × Word))
    (hl : (firstLookup t.roots ils).isSome) :
    (firstLookup (runQueries t qs).roots ils).isSome := by
  induction qs generalizing t with
  | nil => exact hl
  | cons q rest ih =>
    simp only [runQueries, List.foldl_cons] at ih ⊢
    cases hr : resolveWord q.1 t q.2 with
    | none => dsimp only; exact ih hl
    | some r =>
      dsimp only
      refine ih ?_
      rcases resolveWord_tree hr with heq | ⟨out, ha⟩
      · rw [heq]; exact hl
      · exact addWord_stable hl ha

/-- Claim C1.  Once a `resolve_query` on input word `w` has completed
successfully (its output word was set — whether served from the tree or by
invoking the teacher and recording the reply), every later `resolve_query`
carrying `w` — after any sequence of further queries on arbitrary words with
arbitrary teacher behaviour — is answered from the knowledge tree: it
returns with the tree unchanged and without invoking the teacher (the
invocation flag is `false`), for any teacher implementation. -/
theorem claim_C1_at_most_one_submission :
    ∀ (teacher : Word → Option Word) (t : KTree) (w v : Word) (t1 : KTree) (b : Bool),
      resolveWord teacher t w = some (v, t1, b) →
      ∀ (qs : List ((Word → Option Word) × Word)) (teacher2 : Word → Option Word),
        ∃ v2, resolveWord teacher2 (runQueries t1 qs) w =
          some (v2, runQueries t1 qs, false) := by
  intro teacher t w v t1 b h qs teacher2
  have hbase : (firstLookup t1.roots w.letters).isSome := by
    rw [resolveWord] at h
    cases hg : getOutputWord t w with
    | some out =>
      rw [hg] at h
      simp only [Option.some.injEq, Prod.mk.injEq] at h
      rw [← h.2.1]
      rw [getOutputWord] at hg
      cases hfl : firstLookup t.roots w.letters with
      | none => rw [hfl] at hg; cases hg
      | some o => simp [hfl]
    | none =>
      rw [hg] at h
      dsimp only at h
      cases ht : teacher w with
      | none => rw [ht] at h; cases h
      | some out =>
        rw [ht] at h
        dsimp only at h
        cases ha : addWord t w out with
        | none => rw [ha] at h; cases h
        | some t2 =>
          rw [ha] at h
          simp only [Option.map_some', Option.some.injEq, Prod.mk.injEq] at h
          obtain ⟨-, rfl, -⟩ := h
          obtain ⟨-, i0, irest, pre, r', post, outs, huls, hroots, hpre, -, hlook⟩ :=
            addWord_success ha
          have hfull := hlook w.letters.length (by rw [huls]; simp) (le_refl _)
          rw [List.take_length] at hfull
          rw [hroots]
          refine firstLookup_isSome_of_mem ⟨r', by simp, by simp [hfull]⟩
  have hstable := runQueries_stable qs hbase
  obtain ⟨outs, houts⟩ := Option.isSome_iff_exists.mp hstable
  refine ⟨mkWord outs, ?_⟩
  rw [resolveWord]
  rw [getOutputWord, houts]
  rfl

/-- Witness for the C1 theorem: resolving `wC1` on the empty tree invokes
the teacher once; the theorem then yields that an immediately following
resolution of `wC1` is served from the tree with no invocation. -/
theorem claim_C1_at_most_one_submission_witness :
    resolveWord teachC1 (⟨[]⟩ : KTree) wC1 =
      some (⟨[Letter.sym {5}, Letter.sym {5}]⟩, treeC1, true) ∧
    ∃ v2, resolveWord teachC1 (runQueries treeC1 []) wC1 =
      some (v2, runQueries treeC1 [], false) := by
  constructor
  · rfl
  · exact claim_C1_at_most_one_submission teachC1 ⟨[]⟩ wC1
      ⟨[Letter.sym {5}, Letter.sym {5}]⟩ treeC1 true (by rfl) [] teachC1

theorem pyEqL_comm (a b : Letter) : pyEqL a b = pyEqL b a := by
  simp [pyEqL, eq_comm]

theorem forall2_canon_map {xs ys : List Letter}
    (h : List.Forall₂ (fun a b => Letter.canon a = Letter.canon b) xs ys) :
    xs.map Letter.canon = ys.map Letter.canon := by
  induction h with
  | nil => rfl
  | cons hab _ ih => simp [hab, ih]

theorem addWord_lookup_pref {t : KTree} {u v : Word} {t1 : KTree}
    (h : addWord t u v = some t1) :
    ∃ outs, List.Forall₂ (fun a b => Letter.canon a = Letter.canon b) outs v.letters ∧
      ∀ k, 1 ≤ k → k ≤ u.letters.length →
        firstLookup t1.roots (u.letters.take k) = some (outs.take k) := by
  obtain ⟨-, i0, irest, pre, r', post, outs, huls, hroots, hpre, hfa, hlook⟩ :=
    addWord_success h
  refine ⟨outs, hfa, ?_⟩
  intro k hk1 hk2
  rw [hroots]
  refine firstLookup_pre_none ?_ (hlook k hk1 hk2)
  intro x hx
  have hhead : u.letters.take k = i0 :: (irest.take (k - 1)) := by
    rw [huls]
    cases k with
    | zero => omega
    | succ k' => simp
  rw [hhead]
  exact lookupNode_head_fail (by rw [pyEqL_comm]; exact hpre x hx)

/-- Claim C5, counterexample.  On a tree already holding the observation
`([Letter({1})], [EmptyLetter])`, inserting the equal-length pair
`uC5 = [Letter({1}), Letter({2})]`, `vC5 = [Letter(), Letter({3})]`
succeeds (the stored `EmptyLetter` equals `Letter()` under Python `==`),
but the immediately following `get_output_word(uC5)` returns
`[Letter({3})]`, not `vC5`: the collected output path starts with the
stored `EmptyLetter` instance, which the `Word` constructor drops. -/
theorem claim_C5_counterexample :
    addWord (⟨[]⟩ : KTree) ⟨[Letter.sym {1}]⟩ ⟨[Letter.empty]⟩ = some treeC5a ∧
    1 ≤ uC5.letters.length ∧ uC5.letters.length = vC5.letters.length ∧
    addWord treeC5a uC5 vC5 = some treeC5b ∧
    getOutputWord treeC5b uC5 = some ⟨[Letter.sym {3}]⟩ ∧
    pyEqW ⟨[Letter.sym {3}]⟩ vC5 = false := by
  exact ⟨rfl, by decide, by decide, rfl, rfl, by decide⟩

/-- Claim C5, amended.  If `add_word(u, v)` succeeds on any tree (with
`|u| = |v| ≥ 1`), then `get_output_word(u)` succeeds and returns the word
built from the stored output letters along `u`'s path — letters pairwise
Python-equal to those of `v` — passed through the `Word` constructor.  The
result is Python-equal to `v` itself whenever the first letter of `v` is
not Python-equal to the empty letter; a stored leading `EmptyLetter`
instance may otherwise be dropped. -/
theorem claim_C5_insert_lookup :
    ∀ (t : KTree) (u v : Word) (t1 : KTree),
      1 ≤ u.letters.length → u.letters.length = v.letters.length →
      addWord t u v = some t1 →
      ∃ outs, List.Forall₂ (fun a b => Letter.canon a = Letter.canon b) outs v.letters ∧
        getOutputWord t1 u = some (mkWord outs) ∧
        ((∀ l ∈ v.letters.head?, Letter.canon l ≠ ∅) →
          pyEqW (mkWord outs) v = true) := by
  intro t u v t1 hu hlen h
  obtain ⟨outs, hfa, hlook⟩ := addWord_lookup_pref h
  have hfull := hlook u.letters.length hu (le_refl _)
  rw [List.take_length] at hfull
  have houts_len : outs.length = v.letters.length := List.Forall₂.length_eq hfa
  have htake : outs.take u.letters.length = outs := by
    rw [List.take_of_length_le]
    omega
  rw [htake] at hfull
  refine ⟨outs, hfa, ?_, ?_⟩
  · rw [getOutputWord, hfull]
    rfl
  · intro hv
    match houts : outs, hvl : v.letters, hfa with
    | [], [], _ =>
      have h0 : v.letters.length = 0 := by rw [hvl]; rfl
      omega
    | l0 :: orest, vh :: vrest, hfa =>
      have hl0 : Letter.canon l0 = Letter.canon vh := by
        cases hfa with
        | cons hab h2 => exact hab
      have hvh : Letter.canon vh ≠ ∅ := by
        refine hv vh ?_
        rw [hvl]
        rfl
      have hinst : l0.isEmptyInst = false := by
        cases l0 with
        | empty => exact absurd hl0.symm hvh
        | sym s => rfl
      rw [mkWord_cons_not_inst _ hinst]
      rw [pyEqW_iff]
      show List.map Letter.canon (l0 :: orest) = cwW v
      rw [forall2_canon_map hfa]
      rw [cwW, hvl]

/-- Witness for the amended C5 theorem: inserting `([Letter({1})],
[Letter({9})])` into the empty tree and looking the word up again. -/
theorem claim_C5_insert_lookup_witness :
    ∃ outs, List.Forall₂ (fun a b => Letter.canon a = Letter.canon b) outs
        (⟨[Letter.sym {9}]⟩ : Word).letters ∧
      getOutputWord treeC5w ⟨[Letter.sym {1}]⟩ = some (mkWord outs) ∧
      ((∀ l ∈ (⟨[Letter.sym {9}]⟩ : Word).letters.head?, Letter.canon l ≠ ∅) →
        pyEqW (mkWord outs) ⟨[Letter.sym {9}]⟩ = true) :=
  claim_C5_insert_lookup ⟨[]⟩ ⟨[Letter.sym {1}]⟩ ⟨[Letter.sym {9}]⟩ treeC5w
    (by decide) (by decide) rfl

/-- Claim C10, counterexample.  After inserting `(uC10, vC10)` (successful)
into a tree already holding `([Letter({1})], [EmptyLetter])`, looking up the
length-2 prefix `[Letter({1}), Letter({2})]` of `uC10` returns
`[Letter({3})]` — a word of length 1, not the length-2 prefix of `vC10`:
the stored leading `EmptyLetter` instance is dropped by the `Word`
constructor on the way out. -/
theorem claim_C10_counterexample :
    addWord (⟨[]⟩ : KTree) ⟨[Letter.sym {1}]⟩ ⟨[Letter.empty]⟩ = some treeC10a ∧
    addWord treeC10a uC10 vC10 = some treeC10b ∧
    getOutputWord treeC10b ⟨uC10.letters.take 2⟩ = some ⟨[Letter.sym {3}]⟩ ∧
    pyEqW ⟨[Letter.sym {3}]⟩ ⟨vC10.letters.take 2⟩ = false := by
  exact ⟨rfl, rfl, rfl, by decide⟩

/-- Claim C10, amended.  After a successful `add_word(u, v)`, looking up any
non-empty prefix `p` of `u` succeeds and returns the word built (by the
normalising `Word` constructor) from the corresponding stored output
letters, which are pairwise Python-equal to the same-length prefix of `v`;
the result equals that prefix of `v` exactly whenever the first letter of
`v` is not Python-equal to the empty letter. -/
theorem claim_C10_prefix_lookup :
    ∀ (t : KTree) (u v : Word) (t1 : KTree),
      addWord t u v = some t1 →
      ∃ outs, List.Forall₂ (fun a b => Letter.canon a = Letter.canon b) outs v.letters ∧
        ∀ k, 1 ≤ k → k ≤ u.letters.length →
          getOutputWord t1 ⟨u.letters.take k⟩ = some (mkWord (outs.take k)) ∧
          ((∀ l ∈ v.letters.head?, Letter.canon l ≠ ∅) →
            pyEqW (mkWord (outs.take k)) ⟨v.letters.take k⟩ = true) := by
  intro t u v t1 h
  obtain ⟨outs, hfa, hlook⟩ := addWord_lookup_pref h
  refine ⟨outs, hfa, ?_⟩
  intro k hk1 hk2
  constructor
  · rw [getOutputWord]
    show (firstLookup t1.roots (u.letters.take k)).map mkWord = _
    rw [hlook k hk1 hk2]
    rfl
  · intro hv
    match houts : outs, hvl : v.letters, hfa with
    | [], [], _ =>
      exfalso
      have h0 : v.letters.length = 0 := by rw [hvl]; rfl
      have := addWord_success h
      omega
    | l0 :: orest, vh :: vrest, hfa =>
      have hl0 : Letter.canon l0 = Letter.canon vh := by
        cases hfa with
        | cons hab h2 => exact hab
      have hvh : Letter.canon vh ≠ ∅ := by
        refine hv vh ?_
        rw [hvl]
        rfl
      have hinst : l0.isEmptyInst = false := by
        cases l0 with
        | empty => exact absurd hl0.symm hvh
        | sym s => rfl
      match k, hk1 with
      | k' + 1, _ =>
        simp only [List.take_succ_cons]
        rw [mkWord_cons_not_inst _ hinst]
        rw [pyEqW_iff]
        show List.map Letter.canon (l0 :: List.take k' orest) =
          List.map Letter.canon (vh :: List.take k' vrest)
        simp only [List.map_cons]
        have htails : List.map Letter.canon orest = List.map Letter.canon vrest := by
          have h2 := forall2_canon_map hfa
          exact (by simpa using h2 : _ ∧ _).2
        refine congrArg₂ _ hl0 ?_
        rw [List.map_take, List.map_take, htails]

/-- Witness for the amended C10 theorem: after inserting
`([Letter({1}), Letter({2})], [Letter({7}), Letter({8})])` into the empty
tree, both non-empty prefixes are recoverable. -/
theorem claim_C10_prefix_lookup_witness :
    ∃ outs, List.Forall₂ (fun a b => Letter.canon a = Letter.canon b) outs
        (⟨[Letter.sym {7}, Letter.sym {8}]⟩ : Word).letters ∧
      ∀ k, 1 ≤ k → k ≤ (⟨[Letter.sym {1}, Letter.sym {2}]⟩ : Word).letters.length →
        getOutputWord treeC10w ⟨(⟨[Letter.sym {1}, Letter.sym {2}]⟩ : Word).letters.take k⟩ =
          some (mkWord (outs.take k)) ∧
        ((∀ l ∈ (⟨[Letter.sym {7}, Letter.sym {8}]⟩ : Word).letters.head?,
            Letter.canon l ≠ ∅) →
          pyEqW (mkWord (outs.take k))
            ⟨(⟨[Letter.sym {7}, Letter.sym {8}]⟩ : Word).letters.take k⟩ = true) :=
  claim_C10_prefix_lookup ⟨[]⟩ ⟨[Letter.sym {1}, Letter.sym {2}]⟩
    ⟨[Letter.sym {7}, Letter.sym {8}]⟩ treeC10w rfl

theorem list_first_diff {α : Type} :
    ∀ (xs ys : List α), xs.length = ys.length → xs ≠ ys →
    ∃ j a b, j < xs.length ∧ xs.take j = ys.take j ∧
      xs[j]? = some a ∧ ys[j]? = some b ∧ a ≠ b := by
  intro xs
  induction xs with
  | nil =>
    intro ys hlen hne
    cases ys with
    | nil => exact absurd rfl hne
    | cons y yt => simp at hlen
  | cons x xt ih =>
    intro ys hlen hne
    cases ys with
    | nil => simp at hlen
    | cons y yt =>
      by_cases hxy : x = y
      · subst hxy
        have hne' : xt ≠ yt := by
          intro hc
          exact hne (by rw [hc])
        obtain ⟨j, a, b, hj, hpre, ha, hb, hab⟩ := ih yt (by simpa using hlen) hne'
        exact ⟨j + 1, a, b, by simpa using hj, by simpa using hpre, by simpa using ha,
          by simpa using hb, hab⟩
      · exact ⟨0, x, y, by simp, by simp, by simp, by simp, hxy⟩

theorem forall2_canon_getElem {xs ys : List Letter}
    (h : xs.map Letter.canon = ys.map Letter.canon) (j : ℕ) :
    (xs[j]?).map Letter.canon = (ys[j]?).map Letter.canon := by
  rw [← List.getElem?_map, ← List.getElem?_map, h]

theorem lookupNode_head_some {n : KNode} {i0 : Letter} {rest outs : List Letter}
    (h : lookupNode n (i0 :: rest) = some outs) : pyEqL i0 n.inp = true := by
  by_cases h0 : pyEqL i0 n.inp
  · exact h0
  · rw [lookupNode_head_fail (by simpa using h0)] at h
    cases h

/-- Claim C4.  Let `(u, v)` be successfully inserted into any tree, and let
`(u', v')` be an equal-length pair sharing with `(u, v)` an input prefix of
length `k ≥ 1` (Python-equal letterwise) on which the outputs disagree.
Then the second insertion raises the cache-conflict fault (`none`), and —
since the Python code raises before creating any node on this path — the
tree is unchanged; in particular `u` is still resolvable by
`get_output_word`. -/
theorem claim_C4_conflict_leaves_tree :
    ∀ (t0 : KTree) (u v u' v' : Word) (t1 : KTree) (k : ℕ),
      addWord t0 u v = some t1 →
      u'.letters.length = v'.letters.length →
      1 ≤ k → k ≤ u.letters.length → k ≤ u'.letters.length →
      (u'.letters.take k).map Letter.canon = (u.letters.take k).map Letter.canon →
      (v'.letters.take k).map Letter.canon ≠ (v.letters.take k).map Letter.canon →
      addWord t1 u' v' = none ∧ (getOutputWord t1 u).isSome := by
  intro t0 u v u' v' t1 k hadd hlen' hk1 hku hku' hin hout
  obtain ⟨hlenuv, i0, irest, pre, r', post, outs, huls, hroots, hpre, hfa, hlook⟩ :=
    addWord_success hadd
  have houtsmap : outs.map Letter.canon = v.letters.map Letter.canon :=
    forall2_canon_map hfa
  have hulen : 1 ≤ u.letters.length := by rw [huls]; simp
  constructor
  rotate_left
  · obtain ⟨outs2, -, hl2⟩ := addWord_lookup_pref hadd
    have hfull := hl2 u.letters.length hulen (le_refl _)
    rw [List.take_length] at hfull
    rw [getOutputWord, hfull]
    rfl
  -- the failing second insertion
  have hkv' : k ≤ v'.letters.length := hlen' ▸ hku'
  have hkv : k ≤ v.letters.length := hlenuv ▸ hku
  have hxslen : ((v'.letters.take k).map Letter.canon).length =
      ((v.letters.take k).map Letter.canon).length := by
    simp only [List.length_map, List.length_take]
    omega
  obtain ⟨j, a, b, hj, hpref, ha, hb, hab⟩ :=
    list_first_diff _ _ hxslen hout
  have hjk : j < k := by
    simp only [List.length_map, List.length_take] at hj
    omega
  -- element extraction at index j
  have hva : ∃ wa, v'.letters[j]? = some wa ∧ Letter.canon wa = a := by
    rw [List.getElem?_map, List.getElem?_take, if_pos hjk] at ha
    cases hwa : v'.letters[j]? with
    | none => rw [hwa] at ha; cases ha
    | some wa =>
      rw [hwa] at ha
      simp only [Option.map_some', Option.some.injEq] at ha
      exact ⟨wa, rfl, ha⟩
  have hvb : ∃ wb, v.letters[j]? = some wb ∧ Letter.canon wb = b := by
    rw [List.getElem?_map, List.getElem?_take, if_pos hjk] at hb
    cases hwb : v.letters[j]? with
    | none => rw [hwb] at hb; cases hb
    | some wb =>
      rw [hwb] at hb
      simp only [Option.map_some', Option.some.injEq] at hb
      exact ⟨wb, rfl, hb⟩
  obtain ⟨wa, hwa, hwac⟩ := hva
  obtain ⟨wb, hwb, hwbc⟩ := hvb
  -- canonical prefix agreements restricted to j resp. j+1
  have htr : ∀ (l : List Letter) (m : ℕ), m ≤ k →
      List.map Letter.canon (l.take m) = (List.map Letter.canon (l.take k)).take m := by
    intro l m hm
    rw [List.map_take, List.map_take, List.take_take]
    congr 1
    omega
  have hin' : (u'.letters.take (j + 1)).map Letter.canon =
      (u.letters.take (j + 1)).map Letter.canon := by
    rw [htr u'.letters (j + 1) (by omega), htr u.letters (j + 1) (by omega), hin]
  have hprefc : (v'.letters.take j).map Letter.canon =
      (v.letters.take j).map Letter.canon := by
    rw [htr v'.letters j (by omega), htr v.letters j (by omega)]
    exact hpref
  -- the words are non-empty
  cases hqls : u'.letters with
  | nil => rw [hqls] at hku'; simp at hku'; omega
  | cons q0 qrest =>
  cases hwls : v'.letters with
  | nil => rw [hwls] at hkv'; simp at hkv'; omega
  | cons w0 wrest =>
  -- head letters agree with the stored root
  have hq0 : Letter.canon q0 = Letter.canon i0 := by
    have h0 := forall2_canon_getElem hin 0
    rw [List.getElem?_take, if_pos (by omega), List.getElem?_take, if_pos (by omega)] at h0
    rw [hqls, huls] at h0
    simpa using h0
  have hr'head : pyEqL i0 r'.inp = true := by
    have h1 := hlook 1 (by omega) hulen
    rw [huls] at h1
    simp only [List.take_succ_cons, List.take_zero] at h1
    exact lookupNode_head_some h1
  have hfr : findChildPy t1.roots q0 = some (pre, r', post) := by
    rw [hroots]
    refine findChildPy_reconstruct ?_ ?_
    · intro x hx
      rw [pyEqL, decide_eq_false_iff_not, hq0]
      have := hpre x hx
      rw [pyEqL, decide_eq_false_iff_not] at this
      exact this
    · rw [pyEqL_iff, hq0]
      exact (pyEqL_iff.mp hr'head).symm
  -- the first stored output letter
  have houts0 : outs[0]? = some r'.out := by
    have h1 := hlook 1 (by omega) hulen
    rw [huls] at h1
    simp only [List.take_succ_cons, List.take_zero] at h1
    cases houts : outs with
    | nil => rw [houts] at h1; simp [lookupNode, hr'head] at h1
    | cons o0 ot =>
      rw [houts] at h1
      rw [lookupNode, if_pos hr'head] at h1
      simp only [List.take_succ_cons, List.take_zero, Option.some.injEq,
        List.cons.injEq] at h1
      simp [h1.1]
  have hv0canon : (v.letters[0]?).map Letter.canon = some (Letter.canon r'.out) := by
    have := forall2_canon_getElem houtsmap 0
    rw [houts0] at this
    simpa using this.symm
  have hconflict : addWord t1 u' v' = none := by
    rw [addWord, if_pos hlen', hqls, hwls, addLetters, hfr]
    dsimp only
    rcases Nat.eq_zero_or_pos j with rfl | hjpos
    · -- disagreement at the very first letter: the root output check fails
      have hw0 : Letter.canon w0 = a := by
        rw [hwls] at hwa
        simp only [List.getElem?_cons_zero, Option.some.injEq] at hwa
        rw [hwa]; exact hwac
      have hrout : Letter.canon r'.out = b := by
        rw [hwb] at hv0canon
        simp only [Option.map_some', Option.some.injEq] at hv0canon
        rw [← hv0canon]
        exact hwbc
      rw [if_neg (by
        simp only [pyEqL, decide_eq_true_eq]
        intro hc
        exact hab ((hw0.symm.trans hc.symm).trans hrout))]
    · -- agreement at the first letter: the conflict happens inside traverse
      have hw0b : Letter.canon w0 = Letter.canon r'.out := by
        have h0 := forall2_canon_getElem hprefc 0
        rw [List.getElem?_take, if_pos (by omega), List.getElem?_take,
          if_pos (by omega)] at h0
        rw [hwls] at h0
        cases hv0 : v.letters[0]? with
        | none => rw [hv0] at hv0canon; cases hv0canon
        | some vb =>
          rw [hv0] at h0 hv0canon
          simp only [List.getElem?_cons_zero, Option.map_some', Option.some.injEq] at h0
          simp only [Option.map_some', Option.some.injEq] at hv0canon
          rw [h0, hv0canon]
      rw [if_pos (by rw [pyEqL_iff]; exact hw0b.symm)]
      have hplen : (u.letters.take (j + 1)).length = j + 1 := by
        simp only [List.length_take]
        omega
      have hnone : insertNode r' u'.letters v'.letters = none := by
        refine insert_conflict (hlook (j + 1) (by omega) (by omega)) hlen' ?_ ?_ ?_
        · rw [hplen]
          exact hin'
        · rw [hplen]
          simp only [Nat.add_sub_cancel]
          have e1 : (outs.take (j + 1)).take j = outs.take j := by
            rw [List.take_take]
            congr 1
            omega
          rw [e1]
          have e2 : (outs.take j).map Letter.canon = (v.letters.take j).map Letter.canon := by
            rw [List.map_take, List.map_take, houtsmap]
          rw [e2]
          exact hprefc
        · intro a' b' ha' hb'
          rw [hplen] at ha' hb'
          simp only [Nat.add_sub_cancel] at ha' hb'
          rw [hwa] at ha'
          cases ha'
          rw [List.getElem?_take, if_pos (by omega)] at hb'
          have hcb : Letter.canon b' = b := by
            have := forall2_canon_getElem houtsmap j
            rw [hb', hwb] at this
            simp only [Option.map_some', Option.some.injEq] at this
            rw [this, hwbc]
          rw [hwac, hcb]
          exact hab
      rw [hqls, hwls] at hnone
      rw [hnone]
      rfl
  exact hconflict

/-- Witness for the C4 theorem: after inserting
`([Letter({10}), Letter({11})], [Letter({1}), Letter({2})])` into the empty
tree, re-inserting the same input with outputs `[Letter({1}), Letter({3})]`
(sharing the length-2 input prefix, outputs disagreeing at position 1)
raises the conflict and the tree still resolves the first word. -/
theorem claim_C4_conflict_leaves_tree_witness :
    addWord (⟨[]⟩ : KTree) ⟨[Letter.sym {10}, Letter.sym {11}]⟩
        ⟨[Letter.sym {1}, Letter.sym {2}]⟩ = some treeC4w ∧
    (addWord treeC4w ⟨[Letter.sym {10}, Letter.sym {11}]⟩
        ⟨[Letter.sym {1}, Letter.sym {3}]⟩ = none ∧
      (getOutputWord treeC4w ⟨[Letter.sym {10}, Letter.sym {11}]⟩).isSome) := by
  refine ⟨rfl, claim_C4_conflict_leaves_tree ⟨[]⟩ ⟨[Letter.sym {10}, Letter.sym {11}]⟩
    ⟨[Letter.sym {1}, Letter.sym {2}]⟩ ⟨[Letter.sym {10}, Letter.sym {11}]⟩
    ⟨[Letter.sym {1}, Letter.sym {3}]⟩ treeC4w 2 (by rfl) (by decide) (by decide)
    (by decide) (by decide) (by decide) (by decide)⟩

/-- Claim C7, refuted (code bug): the Wp-method's `Z` does not follow the
documented formula.  On the input alphabet `{a, b}` with `max_states = 2`,
one hypothesis state and `W = [[b]]` (so `v = 1`), `__computesZ` returns
`Z = [[b], [b,a], [b,b]]` — it extends `X^0 = W` by single letters only,
never appending the trailing `w ∈ W` required by `X^1 = X^0 · Σ · W` —
whereas the specified formula gives `Z = [[b], [b,a,b], [b,b,b]]`.  In
particular the code's added member `[b,a]` ends with no word of `W`, while
every member of the spec's `Z` does. -/
theorem claim_C7_computesZ_diverges :
    computesZ [laT, lbT] 2 1 [wbT] = [wbT, wbaT, wbbT] ∧
    specZ [laT, lbT] 2 1 [wbT] = [wbT, wbabT, wbbbT] ∧
    wbaT ∈ computesZ [laT, lbT] 2 1 [wbT] ∧
    wbaT ∉ specZ [laT, lbT] 2 1 [wbT] ∧
    (cwW wbT).isSuffixOf (cwW wbaT) = false ∧
    (∀ z ∈ specZ [laT, lbT] 2 1 [wbT], (cwW wbT).isSuffixOf (cwW z) = true) := by
  decide

/-- Counterexample to claim C3: on the table initialised over the alphabet
`[a, b]` against the Mealy teacher `teachC3`, `close_table` returns with
the table still not closed.  The loop moves the offending row `[a]` from
`SA` to `S`; the removal shifts the list under Python's index-based
iteration, so the row `[b]` — whose row value matches no `S` row — is
skipped and never examined. -/
theorem claim_C3_counterexample :
    ((initializeTable teachC3 [laT, lbT]).bind
      (fun t => closeTable teachC3 10 t)).map isClosedT = some false := by
  decide

theorem addWordInSA_SSA {T : CWd → Option (Finset ℕ)} {t : OTable} {w : Word} {t' : OTable}
    (h : addWordInSA T t w = some t') :
    t'.S = t.S ∧ t'.SA = t.SA ++ [w] ∧
      containsW t.SA w = false ∧ containsW t.S w = false := by
  rw [addWordInSA] at h
  split_ifs at h with h1 h2
  rcases Option.map_eq_some'.mp h with ⟨c, -, rfl⟩
  exact ⟨rfl, rfl, Bool.not_eq_true _ ▸ h1, Bool.not_eq_true _ ▸ h2⟩

theorem extendS_S {T : CWd → Option (Finset ℕ)} {w : Word} :
    ∀ {ls : List Letter} {t t' : OTable}, extendS T w ls t = some t' → t'.S = t.S := by
  intro ls
  induction ls with
  | nil => intro t t' h; rw [extendS] at h; cases h; rfl
  | cons a rest ih =>
    intro t t' h
    rw [extendS] at h
    cases hwl : w.letters with
    | nil => rw [hwl] at h; cases h
    | cons l0 lrest =>
      rw [hwl] at h
      dsimp only at h
      generalize (if l0.isEmptyInst = true then mkWord [a] else wordAdd w (mkWord [a])) = nw at h
      split_ifs at h with h1
      · exact ih h
      · cases hsa : addWordInSA T t nw with
        | none => rw [hsa] at h; cases h
        | some t2 =>
          rw [hsa] at h
          have := ih h
          rw [this, (addWordInSA_SSA hsa).1]

theorem addWordInS_S {T : CWd → Option (Finset ℕ)} {t : OTable} {w : Word} {t' : OTable}
    (h : addWordInS T t w = some t') :
    t'.S = t.S ++ [w] ∧ containsW t.S w = false ∧ containsW t.SA w = false := by
  rw [addWordInS] at h
  split_ifs at h with h1 h2
  cases hf : fillRowS T w t.D t.content with
  | none => rw [hf] at h; cases h
  | some c =>
    rw [hf] at h
    refine ⟨?_, Bool.not_eq_true _ ▸ h1, Bool.not_eq_true _ ▸ h2⟩
    exact extendS_S h

theorem closeAux_S_mono {T : CWd → Option (Finset ℕ)} :
    ∀ {fuel : ℕ} {t : OTable} {i : ℕ} {t' : OTable},
      closeAux T fuel t i = some t' → t.S.length ≤ t'.S.length := by
  intro fuel
  induction fuel with
  | zero => intro t i t' h; rw [closeAux] at h; cases h
  | succ fuel ih =>
    intro t i t' h
    rw [closeAux] at h
    cases hsa : t.SA[i]? with
    | none => rw [hsa] at h; cases h; exact le_refl _
    | some w =>
      rw [hsa] at h
      dsimp only at h
      split_ifs at h with h1
      · exact ih h
      · cases hadd : addWordInS T { t with SA := t.SA.eraseP (fun x => pyEqW x w) } w with
        | none => rw [hadd] at h; cases h
        | some t2 =>
          rw [hadd] at h
          have h2 := (addWordInS_S hadd).1
          have h3 := ih h
          have h4 : t2.S.length = t.S.length + 1 := by
            rw [h2]; simp
          omega

theorem closeAux_fixpoint_found {T : CWd → Option (Finset ℕ)} {t : OTable} :
    ∀ {fuel i : ℕ}, closeAux T fuel t i = some t →
      ∀ j w', i ≤ j → t.SA[j]? = some w' →
        t.S.any (fun s => decide (getRowT t s = getRowT t w')) = true := by
  intro fuel
  induction fuel with
  | zero => intro i h; rw [closeAux] at h; cases h
  | succ fuel ih =>
    intro i h j w' hij hjw
    rw [closeAux] at h
    cases hsa : t.SA[i]? with
    | none =>
      have h5 := List.getElem?_eq_none_iff.mp hsa
      have h6 := List.getElem?_eq_some_iff.mp hjw
      rcases h6 with ⟨h7, -⟩
      omega
    | some w =>
      rw [hsa] at h
      dsimp only at h
      split_ifs at h with h1
      · by_cases hji : j = i
        · subst hji
          rw [hjw] at hsa
          cases hsa
          exact h1
        · exact ih h j w' (by omega) hjw
      · cases hadd : addWordInS T { t with SA := t.SA.eraseP (fun x => pyEqW x w) } w with
        | none => rw [hadd] at h; cases h
        | some t2 =>
          rw [hadd] at h
          have hmono := closeAux_S_mono h
          have h2 := (addWordInS_S hadd).1
          have h4 : t2.S.length = t.S.length + 1 := by
            rw [h2]; simp
          omega

/-- Claim C3, amended: a single `close_table` call need not close the
table (see the counterexample above), but every fixed point of
`close_table` is closed — when the call returns its argument unchanged, no
row was moved, hence no index was skipped, hence every `SA` row value was
found among the `S` row values. -/
theorem claim_C3_close_table_fixpoint (T : CWd → Option (Finset ℕ)) (fuel : ℕ)
    (t : OTable) (h : closeTable T fuel t = some t) : isClosedT t = true := by
  rw [isClosedT, List.all_eq_true]
  intro sa hsa
  rcases List.mem_iff_getElem?.mp hsa with ⟨j, hj⟩
  rw [closeTable] at h
  exact closeAux_fixpoint_found h j sa (Nat.zero_le j) hj

/-- Witness for the C3 theorem: the table initialised on the empty
alphabet is a fixed point of `close_table` (its `SA` is empty) and is
closed. -/
theorem claim_C3_close_table_fixpoint_witness :
    closeTable teachC3 5 tEps = some tEps ∧ isClosedT tEps = true :=
  ⟨by decide, claim_C3_close_table_fixpoint teachC3 5 tEps (by decide)⟩

theorem disjointSSA_iff {t : OTable} :
    disjointSSA t = true ↔ ∀ s ∈ t.S, ∀ r ∈ t.SA, cwW s ≠ cwW r := by
  simp [disjointSSA, pyEqW, List.all_eq_true]

theorem containsW_eq_false {l : List Word} {w : Word} :
    containsW l w = false ↔ ∀ x ∈ l, cwW x ≠ cwW w := by
  simp [containsW, pyEqW, List.any_eq_false]

theorem disjointSSA_congr {t t' : OTable} (h1 : t'.S = t.S) (h2 : t'.SA = t.SA) :
    disjointSSA t' = disjointSSA t := by
  rw [disjointSSA, disjointSSA, h1, h2]

theorem disj_addWordInSA {T : CWd → Option (Finset ℕ)} {t : OTable} {w : Word} {t' : OTable}
    (h : addWordInSA T t w = some t') (hd : disjointSSA t = true) :
    disjointSSA t' = true := by
  rcases addWordInSA_SSA h with ⟨hS, hSA, -, hSw⟩
  rw [disjointSSA_iff] at hd ⊢
  rw [hS, hSA]
  intro s hs r hr
  rcases List.mem_append.mp hr with hr | hr
  · exact hd s hs r hr
  · rcases List.mem_singleton.mp hr with rfl
    exact containsW_eq_false.mp hSw s hs

theorem disj_extendS {T : CWd → Option (Finset ℕ)} {w : Word} :
    ∀ {ls : List Letter} {t t' : OTable}, extendS T w ls t = some t' →
      disjointSSA t = true → disjointSSA t' = true := by
  intro ls
  induction ls with
  | nil => intro t t' h hd; rw [extendS] at h; cases h; exact hd
  | cons a rest ih =>
    intro t t' h hd
    rw [extendS] at h
    cases hwl : w.letters with
    | nil => rw [hwl] at h; cases h
    | cons l0 lrest =>
      rw [hwl] at h
      dsimp only at h
      generalize (if l0.isEmptyInst = true then mkWord [a] else wordAdd w (mkWord [a])) = nw at h
      split_ifs at h with h1
      · exact ih h hd
      · cases hsa : addWordInSA T t nw with
        | none => rw [hsa] at h; cases h
        | some t2 =>
          rw [hsa] at h
          exact ih h (disj_addWordInSA hsa hd)

theorem disj_addWordInS {T : CWd → Option (Finset ℕ)} {t : OTable} {w : Word} {t' : OTable}
    (h : addWordInS T t w = some t') (hd : disjointSSA t = true) :
    disjointSSA t' = true := by
  rw [addWordInS] at h
  split_ifs at h with h1 h2
  cases hf : fillRowS T w t.D t.content with
  | none => rw [hf] at h; cases h
  | some c =>
    rw [hf] at h
    refine disj_extendS h ?_
    rw [disjointSSA_iff] at hd ⊢
    intro s hs r hr
    rcases List.mem_append.mp hs with hs | hs
    · exact hd s hs r hr
    · rcases List.mem_singleton.mp hs with rfl
      have h2' : containsW t.SA s = false := Bool.not_eq_true _ ▸ h2
      exact fun he => containsW_eq_false.mp h2' r hr he.symm

theorem disj_sub {t t' : OTable} (h1 : t'.S ⊆ t.S) (h2 : t'.SA ⊆ t.SA)
    (hd : disjointSSA t = true) : disjointSSA t' = true := by
  rw [disjointSSA_iff] at hd ⊢
  intro s hs r hr
  exact hd s (h1 hs) r (h2 hr)

theorem disj_removeRow {t : OTable} {w : Word} (hd : disjointSSA t = true) :
    disjointSSA (removeRow t w) = true := by
  refine disj_sub ?_ ?_ hd
  · exact (List.eraseP_sublist _).subset
  · exact (List.eraseP_sublist _).subset

theorem disj_ceSteps {T : CWd → Option (Finset ℕ)} {u : Word} :
    ∀ {ks : List ℕ} {t t' : OTable}, ceSteps T u ks t = some t' →
      disjointSSA t = true → disjointSSA t' = true := by
  intro ks
  induction ks with
  | nil => intro t t' h hd; rw [ceSteps] at h; cases h; exact hd
  | cons k rest ih =>
    intro t t' h hd
    rw [ceSteps] at h
    by_cases h1 : containsW t.S (mkWord (List.take k u.letters)) = true
    · rw [if_pos h1] at h
      exact ih h hd
    · rw [if_neg h1] at h
      have hdmid : disjointSSA (if containsW t.SA (mkWord (List.take k u.letters)) = true
          then removeRow t (mkWord (List.take k u.letters)) else t) = true := by
        split_ifs
        · exact disj_removeRow hd
        · exact hd
      generalize (if containsW t.SA (mkWord (List.take k u.letters)) = true
          then removeRow t (mkWord (List.take k u.letters)) else t) = tmid at h hdmid
      cases hadd : addWordInS T tmid (mkWord (List.take k u.letters)) with
      | none => rw [hadd] at h; cases h
      | some t2 =>
        rw [hadd] at h
        exact ih h (disj_addWordInS hadd hdmid)

theorem disj_closeAux {T : CWd → Option (Finset ℕ)} :
    ∀ {fuel : ℕ} {t : OTable} {i : ℕ} {t' : OTable}, closeAux T fuel t i = some t' →
      disjointSSA t = true → disjointSSA t' = true := by
  intro fuel
  induction fuel with
  | zero => intro t i t' h hd; rw [closeAux] at h; cases h
  | succ fuel ih =>
    intro t i t' h hd
    rw [closeAux] at h
    cases hsa : t.SA[i]? with
    | none => rw [hsa] at h; cases h; exact hd
    | some w =>
      rw [hsa] at h
      dsimp only at h
      split_ifs at h with h1
      · exact ih h hd
      · cases hadd : addWordInS T { t with SA := t.SA.eraseP (fun x => pyEqW x w) } w with
        | none => rw [hadd] at h; cases h
        | some t2 =>
          rw [hadd] at h
          have hdmid : disjointSSA { t with SA := t.SA.eraseP (fun x => pyEqW x w) } = true := by
            refine disj_sub ?_ ?_ hd
            · intro x hx; exact hx
            · exact (List.eraseP_sublist _).subset
          exact ih h (disj_addWordInS hadd hdmid)

theorem addWordInD_SSA {T : CWd → Option (Finset ℕ)} {t : OTable} {w : Word} {t' : OTable}
    (h : addWordInD T t w = some t') : t'.S = t.S ∧ t'.SA = t.SA := by
  rw [addWordInD] at h
  split_ifs at h
  rcases Option.map_eq_some'.mp h with ⟨c, -, rfl⟩
  exact ⟨rfl, rfl⟩

theorem initD_SSA {T : CWd → Option (Finset ℕ)} :
    ∀ {ls : List Letter} {t t' : OTable}, initD T ls t = some t' →
      t'.S = t.S ∧ t'.SA = t.SA := by
  intro ls
  induction ls with
  | nil => intro t t' h; rw [initD] at h; cases h; exact ⟨rfl, rfl⟩
  | cons a rest ih =>
    intro t t' h
    rw [initD] at h
    cases hadd : addWordInD T t (mkWord [a]) with
    | none => rw [hadd] at h; cases h
    | some t2 =>
      rw [hadd] at h
      rcases ih h with ⟨h1, h2⟩
      rcases addWordInD_SSA hadd with ⟨h3, h4⟩
      exact ⟨h1.trans h3, h2.trans h4⟩

/-- Claim C8, confirmed: `S` and `SA` are disjoint (no word is a Python
`==`-member of both) after a successful `initialize`, and disjointness is
preserved by every successful `close_table`, `make_consistent` and
`add_counterexample`.  Every insertion into `S` first checks membership in
`SA` and vice versa, `remove_row` only removes, and D-insertions do not
touch the row sets. -/
theorem claim_C8_S_SA_disjoint :
    (∀ (T : CWd → Option (Finset ℕ)) (ils : List Letter) (t : OTable),
        initializeTable T ils = some t → disjointSSA t = true) ∧
    (∀ (T : CWd → Option (Finset ℕ)) (fuel : ℕ) (t t' : OTable),
        disjointSSA t = true → closeTable T fuel t = some t' → disjointSSA t' = true) ∧
    (∀ (T : CWd → Option (Finset ℕ)) (t : OTable) (a : Letter) (d : Word) (t' : OTable),
        disjointSSA t = true → makeConsistent T t a d = some t' → disjointSSA t' = true) ∧
    (∀ (T : CWd → Option (Finset ℕ)) (t : OTable) (u v : Word) (t' : OTable),
        disjointSSA t = true → addCounterexample T t u v = some t' → disjointSSA t' = true) := by
  refine ⟨?_, ?_, ?_, ?_⟩
  · intro T ils t h
    rw [initializeTable] at h
    cases hinit : initD T ils ⟨ils, [], [], [], []⟩ with
    | none => rw [hinit] at h; cases h
    | some t1 =>
      rw [hinit] at h
      rcases initD_SSA hinit with ⟨h1, h2⟩
      have hd1 : disjointSSA t1 = true := by
        rw [disjointSSA_iff]
        intro s hs
        rw [h1] at hs
        cases hs
      exact disj_addWordInS h hd1
  · intro T fuel t t' hd h
    rw [closeTable] at h
    exact disj_closeAux h hd
  · intro T t a d t' hd h
    rw [makeConsistent] at h
    rcases addWordInD_SSA h with ⟨h1, h2⟩
    rw [disjointSSA_congr h1 h2]
    exact hd
  · intro T t u v t' hd h
    rw [addCounterexample] at h
    split_ifs at h
    exact disj_ceSteps h hd

/-- Witness for the C8 theorem: concrete applications of all four
conjuncts — an initialised table, a `close_table` fixed point, a
`make_consistent` on the empty table, and an `add_counterexample` on the
ε-only table — all yield disjoint `S`/`SA`. -/
theorem claim_C8_S_SA_disjoint_witness :
    disjointSSA tTBL = true ∧ disjointSSA tEps = true ∧
      disjointSSA tNilMC = true ∧ disjointSSA tEpsCE = true :=
  ⟨claim_C8_S_SA_disjoint.1 teachC3 [laT, lbT] tTBL (by decide),
   claim_C8_S_SA_disjoint.2.1 teachC3 5 tEps tEps (by decide) (by decide),
   claim_C8_S_SA_disjoint.2.2.1 teachC3 tNil laT waT tNilMC (by decide) (by decide),
   claim_C8_S_SA_disjoint.2.2.2 teachC3 tEps waT wOut9 tEpsCE (by decide) (by decide)⟩

theorem lookupD_nil {α : Type} (k : CWd) : lookupD ([] : List (CWd × α)) k = none := rfl

theorem lookupD_cons_self {α : Type} {p : CWd × α} {k : CWd} (h : p.1 = k)
    (m : List (CWd × α)) : lookupD (p :: m) k = some p.2 := by
  rw [lookupD, List.find?_cons_of_pos]
  · rfl
  · simp [h]

theorem lookupD_cons_ne {α : Type} {p : CWd × α} {k : CWd} (h : p.1 ≠ k)
    (m : List (CWd × α)) : lookupD (p :: m) k = lookupD m k := by
  rw [lookupD, List.find?_cons_of_neg, lookupD]
  simp [h]

theorem lookupD_setD_self {α : Type} (k : CWd) (v : α) :
    ∀ m : List (CWd × α), lookupD (setD m k v) k = some v := by
  intro m
  induction m with
  | nil => rw [setD]; exact lookupD_cons_self rfl _
  | cons p rest ih =>
    rw [setD]
    split_ifs with h
    · exact lookupD_cons_self rfl _
    · rw [lookupD_cons_ne h]; exact ih

theorem lookupD_setD_ne {α : Type} {k k' : CWd} (h : k' ≠ k) (v : α) :
    ∀ m : List (CWd × α), lookupD (setD m k v) k' = lookupD m k' := by
  intro m
  induction m with
  | nil =>
    rw [setD, lookupD_cons_ne (Ne.symm h), lookupD_nil]
  | cons p rest ih =>
    rw [setD]
    split_ifs with hp
    · rw [lookupD_cons_ne (Ne.symm h), lookupD_cons_ne (by rw [hp]; exact Ne.symm h)]
    · by_cases hpk : p.1 = k'
      · rw [lookupD_cons_self hpk, lookupD_cons_self hpk]
      · rw [lookupD_cons_ne hpk, lookupD_cons_ne hpk]; exact ih

theorem lookupD_append_some {α : Type} {k : CWd} {v : α} (m₂ : List (CWd × α)) :
    ∀ {m₁ : List (CWd × α)}, lookupD m₁ k = some v → lookupD (m₁ ++ m₂) k = some v := by
  intro m₁
  induction m₁ with
  | nil => intro h; rw [lookupD_nil] at h; cases h
  | cons p rest ih =>
    intro h
    by_cases hp : p.1 = k
    · rw [lookupD_cons_self hp] at h
      rw [List.cons_append, lookupD_cons_self hp]
      exact h
    · rw [lookupD_cons_ne hp] at h
      rw [List.cons_append, lookupD_cons_ne hp]
      exact ih h

theorem lookupD_append_none {α : Type} {k : CWd} (m₂ : List (CWd × α)) :
    ∀ {m₁ : List (CWd × α)}, lookupD m₁ k = none →
      lookupD (m₁ ++ m₂) k = lookupD m₂ k := by
  intro m₁
  induction m₁ with
  | nil => intro h; rfl
  | cons p rest ih =>
    intro h
    by_cases hp : p.1 = k
    · rw [lookupD_cons_self hp] at h; cases h
    · rw [lookupD_cons_ne hp] at h
      rw [List.cons_append, lookupD_cons_ne hp]
      exact ih h

theorem buildCels_stable {T : CWd → Option (Finset ℕ)} {w : Word} :
    ∀ {rows : List Word} {acc cels : OCol}, buildCels T w rows acc = some cels →
      ∀ k, k ∉ rows.map cwW → lookupD cels k = lookupD acc k := by
  intro rows
  induction rows with
  | nil => intro acc cels h k hk; rw [buildCels] at h; cases h; rfl
  | cons r rest ih =>
    intro acc cels h k hk
    rw [buildCels] at h
    cases hq : cellQuery T r w with
    | none => rw [hq] at h; cases h
    | some v =>
      rw [hq] at h
      simp only [List.map_cons, List.mem_cons, not_or] at hk
      obtain ⟨hk1, hk2⟩ := hk
      rw [ih h k hk2, lookupD_setD_ne hk1]

theorem buildCels_lookup {T : CWd → Option (Finset ℕ)} {w : Word} :
    ∀ {rows : List Word} {acc cels : OCol}, (rows.map cwW).Nodup →
      buildCels T w rows acc = some cels →
      ∀ r ∈ rows, ∃ v, cellQuery T r w = some v ∧
        lookupD cels (cwW r) = some (some v) := by
  intro rows
  induction rows with
  | nil => intro acc cels hn h r hr; cases hr
  | cons r0 rest ih =>
    intro acc cels hn h r hr
    rw [buildCels] at h
    cases hq : cellQuery T r0 w with
    | none => rw [hq] at h; cases h
    | some v0 =>
      rw [hq] at h
      simp only [List.map_cons, List.nodup_cons] at hn
      obtain ⟨hn1, hn2⟩ := hn
      rcases List.mem_cons.mp hr with rfl | hr'
      · exact ⟨v0, hq, by rw [buildCels_stable h (cwW r) hn1, lookupD_setD_self]⟩
      · exact ih hn2 h r hr'

theorem addWordInD_eq {T : CWd → Option (Finset ℕ)} {t : OTable} {w : Word} {t' : OTable}
    (h : addWordInD T t w = some t') :
    containsW t.D w = false ∧
      (t.content.any (fun p => decide (p.1 = cwW w))) = false ∧
      ∃ cels, buildCels T w (t.S ++ t.SA) [] = some cels ∧
        t' = { t with D := t.D ++ [w], content := t.content ++ [(cwW w, cels)] } := by
  rw [addWordInD] at h
  split_ifs at h with h1 h2
  rcases Option.map_eq_some'.mp h with ⟨cels, hc, rfl⟩
  exact ⟨Bool.not_eq_true _ ▸ h1, Bool.not_eq_true _ ▸ h2, cels, hc, rfl⟩

theorem getRowT_after_addD {T : CWd → Option (Finset ℕ)} {t : OTable} {w : Word}
    {t' : OTable} (h : addWordInD T t w = some t')
    (hNodup : ((t.S ++ t.SA).map cwW).Nodup) :
    t'.S = t.S ∧ t'.SA = t.SA ∧
    ∀ r ∈ t.S ++ t.SA, ∃ v, T (cwW (wordAdd r w)) = some v ∧
      getRowT t' r = getRowT t r ++ [some v] := by
  rcases addWordInD_eq h with ⟨hD, hK, cels, hbc, rfl⟩
  refine ⟨rfl, rfl, ?_⟩
  intro r hr
  rcases buildCels_lookup hNodup hbc r hr with ⟨v, hq, hlv⟩
  refine ⟨v, hq, ?_⟩
  have hKn : ∀ p ∈ t.content, p.1 ≠ cwW w := by
    intro p hp
    have h6 := List.any_eq_false.mp hK p hp
    simpa using h6
  have hcontnone : lookupD t.content (cwW w) = none := by
    rw [lookupD, List.find?_eq_none.mpr]
    · rfl
    · intro p hp; simpa using hKn p hp
  have hnew : lookupD (t.content ++ [(cwW w, cels)]) (cwW w) = some cels := by
    rw [lookupD_append_none _ hcontnone]
    exact lookupD_cons_self rfl _
  have hcongr : ∀ d ∈ t.D,
      lookupD (t.content ++ [(cwW w, cels)]) (cwW d) = lookupD t.content (cwW d) := by
    intro d hd
    cases hc : lookupD t.content (cwW d) with
    | some cel => exact lookupD_append_some _ hc
    | none =>
      rw [lookupD_append_none _ hc]
      have hne : cwW d ≠ cwW w := containsW_eq_false.mp hD d hd
      rw [lookupD_cons_ne (Ne.symm hne), lookupD_nil]
  rw [getRowT, getRowT]
  dsimp only
  rw [List.filterMap_append]
  congr 1
  · exact List.filterMap_congr (fun d hd => by rw [hcongr d hd])
  · rw [List.filterMap_cons, List.filterMap_nil]
    rw [hnew]
    dsimp only [Option.bind]
    rw [hlv]

theorem wordAdd_snoc_assoc (s : Word) (a : Letter) (d : Word)
    (hn : normalizedW s = true) (hne : s.letters ≠ []) (ha : a.isEmptyInst = false) :
    wordAdd (mkWord (s.letters ++ [a])) d = wordAdd s (mkWord (a :: d.letters)) := by
  have hw0 : (mkWord (a :: d.letters)).letters = a :: d.letters :=
    congrArg Word.letters (mkWord_cons_not_inst d.letters ha)
  obtain ⟨ls⟩ := s
  match ls, hne, hn with
  | [l], _, _ =>
    by_cases hl : l.isEmptyInst = true
    · have h1 : mkWord ([l] ++ [a]) = ⟨[a]⟩ := by
        simp [mkWord, hl]
      have h2 : wordAdd ⟨[a]⟩ d = ⟨[a] ++ d.letters⟩ := wordAdd_cons_not_inst rfl ha d
      have h3 : wordAdd ⟨[l]⟩ (mkWord (a :: d.letters)) = mkWord (a :: d.letters) := by
        simp only [wordAdd]
        simp [hl, hw0]
      rw [h1, h2, h3, mkWord_cons_not_inst d.letters ha]
      rfl
    · have hl' : l.isEmptyInst = false := Bool.not_eq_true _ ▸ hl
      have h1 : mkWord ([l] ++ [a]) = ⟨[l, a]⟩ := mkWord_cons_not_inst _ hl'
      rw [h1, wordAdd_cons_not_inst rfl hl' d,
        wordAdd_cons_not_inst rfl hl' (mkWord (a :: d.letters)), hw0]
      rfl
  | l :: m :: rest, _, hnn =>
    have hl' : l.isEmptyInst = false := by
      simp only [normalizedW, Bool.not_eq_true'] at hnn
      exact hnn
    have h1 : mkWord ((l :: m :: rest) ++ [a]) = ⟨(l :: m :: rest) ++ [a]⟩ := by
      rw [List.cons_append]
      exact mkWord_cons_not_inst _ hl'
    have h2 := @wordAdd_cons_not_inst ⟨l :: (m :: rest ++ [a])⟩ l (m :: rest ++ [a]) rfl hl' d
    have h3 := @wordAdd_cons_not_inst ⟨l :: m :: rest⟩ l (m :: rest) rfl hl'
      (mkWord (a :: d.letters))
    rw [h1, List.cons_append, h2, h3, hw0]
    congr 1
    simp

theorem card_image_lt_of_pair {α β : Type} [DecidableEq α] [DecidableEq β]
    {s : Finset α} {f : α → β} {a b : α} (ha : a ∈ s) (hb : b ∈ s) (hab : a ≠ b)
    (hf : f a = f b) : (s.image f).card < s.card := by
  have h1 : s.image f = (s.erase a).image f := by
    apply Finset.Subset.antisymm
    · intro y hy
      rcases Finset.mem_image.mp hy with ⟨x, hx, rfl⟩
      by_cases hxa : x = a
      · subst hxa
        exact Finset.mem_image.mpr ⟨b, Finset.mem_erase.mpr ⟨Ne.symm hab, hb⟩, hf.symm⟩
      · exact Finset.mem_image.mpr ⟨x, Finset.mem_erase.mpr ⟨hxa, hx⟩, rfl⟩
    · exact Finset.image_subset_image (Finset.erase_subset _ _)
  rw [h1]
  calc ((s.erase a).image f).card ≤ (s.erase a).card := Finset.card_image_le
    _ < s.card := Finset.card_erase_lt_of_mem ha

theorem list_map_toFinset {α β : Type} [DecidableEq α] [DecidableEq β]
    (l : List α) (f : α → β) : (l.map f).toFinset = l.toFinset.image f := by
  induction l with
  | nil => simp
  | cons a rest ih => simp [ih]

/-- Claim C2, confirmed: under the table invariants, a `make_consistent`
call strictly increases the number of distinct row values over `S`.  The
hypotheses render the invariants and the genuine inconsistency witness
`((s1, s2), a), d)`: `s1` and `s2` are (normalised, non-empty) members of
`S` with equal rows; the alphabet letter `a` is not an `EmptyLetter`
instance; the words of `S + SA` are pairwise `==`-distinct; and — the
content of `find_inconsistency`'s check `ot_content[d][s1+a] !=
ot_content[d][s2+a]` read through the cell invariant (each cell holds the
last letter of the deterministic teacher's reply to `row + column`) — the
teacher's replies to the two suffixed rows extended by `d` differ.  The
new column `⟨a⟩ · d` then receives exactly those two differing values at
rows `s1` and `s2`, while every old row value is preserved as a prefix, so
the count of distinct `S` rows strictly grows. -/
theorem claim_C2_make_consistent_refines
    (T : CWd → Option (Finset ℕ)) (t t' : OTable) (s1 s2 : Word) (a : Letter) (d : Word)
    (hs1 : s1 ∈ t.S) (hs2 : s2 ∈ t.S)
    (hn1 : normalizedW s1 = true) (hn2 : normalizedW s2 = true)
    (hne1 : s1.letters ≠ []) (hne2 : s2.letters ≠ [])
    (ha : a.isEmptyInst = false)
    (hNodup : ((t.S ++ t.SA).map cwW).Nodup)
    (hrow : getRowT t s1 = getRowT t s2)
    (hwit : T (cwW (wordAdd (mkWord (s1.letters ++ [a])) d)) ≠
            T (cwW (wordAdd (mkWord (s2.letters ++ [a])) d)))
    (hmc : makeConsistent T t a d = some t') :
    distinctRowCount t < distinctRowCount t' := by
  rw [makeConsistent] at hmc
  rcases getRowT_after_addD hmc hNodup with ⟨hS, hSA, hext⟩
  rw [wordAdd_snoc_assoc s1 a d hn1 hne1 ha, wordAdd_snoc_assoc s2 a d hn2 hne2 ha] at hwit
  rcases hext s1 (List.mem_append_left _ hs1) with ⟨v1, hv1, hr1⟩
  rcases hext s2 (List.mem_append_left _ hs2) with ⟨v2, hv2, hr2⟩
  have hv12 : v1 ≠ v2 := by
    intro he
    subst he
    rw [hv1, hv2] at hwit
    exact hwit rfl
  have hmapD : t.S.map (fun s => getRowT t s)
      = (t.S.map (fun s => getRowT t' s)).map List.dropLast := by
    rw [List.map_map]
    refine (List.map_congr_left ?_).symm
    intro s hs
    rcases hext s (List.mem_append_left _ hs) with ⟨v, -, hr⟩
    show List.dropLast (getRowT t' s) = getRowT t s
    rw [hr, List.dropLast_concat]
  rw [distinctRowCount, distinctRowCount, hS, hmapD, list_map_toFinset]
  refine @card_image_lt_of_pair _ _ _ _ _ List.dropLast (getRowT t' s1) (getRowT t' s2)
    ?_ ?_ ?_ ?_
  · exact List.mem_toFinset.mpr (List.mem_map.mpr ⟨s1, hs1, rfl⟩)
  · exact List.mem_toFinset.mpr (List.mem_map.mpr ⟨s2, hs2, rfl⟩)
  · intro he
    rw [hr1, hr2] at he
    have h2 := congrArg List.getLast? he
    rw [List.getLast?_concat, List.getLast?_concat] at h2
    simp only [Option.some.injEq] at h2
    exact hv12 h2
  · rw [hr1, hr2, List.dropLast_concat, List.dropLast_concat]
    exact hrow

/-- Witness for the C2 theorem: on the concrete table `tC2` over the
alphabet `[a]` (rows `ε` and `[a]` coincide) with teacher `teachC2`, the
`make_consistent` call for the witness `((ε, [a]), a), [a])` produces
`tC2r`, and the distinct-row count over `S` rises from 1 to 2. -/
theorem claim_C2_make_consistent_refines_witness :
    getRowT tC2 epsW = getRowT tC2 waT ∧
      distinctRowCount tC2 < distinctRowCount tC2r :=
  ⟨by decide,
   claim_C2_make_consistent_refines teachC2 tC2 tC2r epsW waT laT waT
     (by decide) (by decide) (by decide) (by decide) (by decide) (by decide)
     (by decide) (by decide) (by decide) (by decide) (by decide)⟩
